import Mathlib

/-!
# Advanced todo (`02_react_advanced_todo/app.js`): reducer and derived view

A shallow embedding of the pure core of `app.js`:

* `todoReducer` (lines 20-35), the transition function over the task collection;
* `visibleTodos` (lines 71-88), the filter / search / sort pipeline, and `stats`
  (lines 90-98);
* `readLocalTodos`, `saveLocalTodos` (lines 5-18) and `addTodo` (lines 48-69).

Representation choices.

* A collection is a `List Task`; a task is the record that `addTodo` builds
  (lines 56-62): `id`, `title`, `priority`, `completed`, `createdAt`.
* `id`, `title` and `priority` are strings, `completed` is a Boolean.
* `createdAt` is kept as the time value (milliseconds since the epoch) that
  `new Date(todo.createdAt)` yields for the stored ISO string; the string is
  produced by `new Date().toISOString()`, which has millisecond precision, so
  nothing is lost.  Only the sign of a difference of two time values is used.
  A record whose `createdAt` does not parse as a date is not a task of this
  data model.
* `priority` stays an arbitrary string: the lookup `rank[todo.priority]` is
  modelled for every key, including the keys that are not in the table.
* `Array.prototype.sort` is a built-in that the language requires to be
  stable; it is modelled by a stable insertion sort over the comparator of
  the source (`sort`).  That is exact when the comparator is consistent, which
  it is when every priority is in the rank table.  Otherwise the order is left
  to the engine: `v8Sort` follows the V8 engine on arrays of fewer than 64
  elements, and is proved equal to `sort` for listed priorities.
* `String.prototype.toLowerCase` is a parameter (`LowerCase`), `trim` and
  `includes` are defined on code points.
* `readLocalTodos` (lines 5-14) and `saveLocalTodos` (lines 16-18) work on a
  model of `localStorage` (items by key, or every access throws; no quota).
  `JSON.parse`, `JSON.stringify` and `toISOString` are parameters (`JSON`);
  what is read back is a list of `JsValue`, as the source returns the parsed
  array unchecked.
* `addTodo` (lines 48-69) is the action it dispatches, if any; the random id
  and the clock are arguments.
* An action is a record with the three properties the reducer may read:
  `type`, `payload` and `id`.  A branch reads only the properties it needs, so
  the value of the others is irrelevant, exactly as an absent property is in
  the source.
-/

namespace AdvancedTodo

/-! ## Data model -/

/-- The task record built by `addTodo` (lines 56-62). -/
structure Task where
  id : String
  title : String
  priority : String
  completed : Bool
  createdAt : Int
  deriving DecidableEq, Repr, Inhabited

/-- The action object passed to `todoReducer`: `action.type`, `action.payload`, `action.id`. -/
structure Action where
  type : String
  payload : Task
  id : String
  deriving DecidableEq, Repr, Inhabited

/-! ## Transition engine -/

/-- The function `todoReducer(state, action)` (lines 20-35): a `switch` on `action.type`. -/
def todoReducer (state : List Task) (action : Action) : List Task :=
  if action.type = "add" then
    action.payload :: state
  else if action.type = "toggle" then
    state.map (fun todo =>
      if todo.id = action.id then { todo with completed := !todo.completed } else todo)
  else if action.type = "remove" then
    state.filter (fun todo => decide (todo.id ≠ action.id))
  else if action.type = "clear-completed" then
    state.filter (fun todo => !todo.completed)
  else
    state

/-! ## Built-in string operations used by the view -/

/-- The code points removed by `String.prototype.trim`: the ECMAScript `WhiteSpace` and
`LineTerminator` productions (TAB, LF, VT, FF, CR, SP, NBSP, the `Zs` category, LS, PS, BOM). -/
def isWhiteSpace (c : Char) : Bool :=
  decide (c.toNat ∈ [0x09, 0x0A, 0x0B, 0x0C, 0x0D, 0x20, 0xA0, 0x1680, 0x2028, 0x2029,
    0x202F, 0x205F, 0x3000, 0xFEFF]) || (decide (0x2000 ≤ c.toNat) && decide (c.toNat ≤ 0x200A))

/-- The built-in `String.prototype.trim`: white space stripped from both ends. -/
def trim (s : String) : String :=
  String.mk ((s.data.dropWhile isWhiteSpace).reverse.dropWhile isWhiteSpace).reverse

/-- The built-in `String.prototype.includes`: `sub` occurs in `s` as a contiguous run. -/
def includes (s sub : String) : Bool :=
  s.data.tails.any (fun t => sub.data.isPrefixOf t)

/-- Lower-casing restricted to the ASCII letters `A`-`Z`. -/
def asciiLower (s : String) : String :=
  String.mk (s.data.map Char.toLower)

/-- The built-in `String.prototype.toLowerCase`.  Its Unicode case tables are not part of the
repository, so the function is a parameter of the view; the one fact recorded about it is that
a string of ASCII characters is lower-cased letter by letter (no ASCII character has a
context-dependent or multi-character lower case). -/
structure LowerCase where
  apply : String → String
  ascii : ∀ s : String, (∀ c ∈ s.data, c.toNat < 128) → apply s = asciiLower s

/-- A `LowerCase` that touches the ASCII letters only. -/
def asciiLowerCase : LowerCase where
  apply := asciiLower
  ascii := fun _ _ => rfl

/-! ## View deriver -/

/-- The value of `rank[p]` for the literal `rank = { high: 0, medium: 1, low: 2 }` (line 82):
an own property, `undefined` (`absent`), or a member inherited from `Object.prototype`. -/
inductive RankValue where
  | num (n : Nat)
  | absent
  | inherited (key : String)
  deriving DecidableEq, Repr

/-- The property names every object literal inherits from `Object.prototype`. -/
def objectPrototypeKeys : List String :=
  ["constructor", "hasOwnProperty", "isPrototypeOf", "propertyIsEnumerable", "toLocaleString",
   "toString", "valueOf", "__proto__", "__defineGetter__", "__defineSetter__",
   "__lookupGetter__", "__lookupSetter__"]

/-- The lookup `rank[p]` (line 82). -/
def rank (p : String) : RankValue :=
  if p = "high" then .num 0
  else if p = "medium" then .num 1
  else if p = "low" then .num 2
  else if p ∈ objectPrototypeKeys then .inherited p
  else .absent

/-- The subtraction `x - y` of two looked-up ranks; `none` is `NaN`. -/
def RankValue.sub : RankValue → RankValue → Option Int
  | .num a, .num b => some ((a : Int) - (b : Int))
  | _, _ => none

/-- The comparator passed to `sort` (lines 81-87); `none` is `NaN`. -/
def compareTodos (a b : Task) : Option Int :=
  if rank a.priority ≠ rank b.priority then
    (rank a.priority).sub (rank b.priority)
  else
    some (b.createdAt - a.createdAt)

/-- The abstract operation `SortCompare` of `Array.prototype.sort`: a `NaN` result counts as
`+0`. -/
def sortCompare {α : Type} (cmp : α → α → Option Int) (x y : α) : Int :=
  (cmp x y).getD 0

/-- The built-in `Array.prototype.sort(cmp)`, which is required to be stable: `x` stays in front
of `y` unless the comparator puts it strictly after.  For a consistent comparator the result
does not depend on the sorting algorithm; a stable insertion sort is used here.  When the
comparator is not consistent (a priority outside the rank table) the order is left to the
engine and can differ from this one; `v8Sort` below follows one engine there. -/
def sort {α : Type} (cmp : α → α → Option Int) (l : List α) : List α :=
  l.insertionSort (fun x y => sortCompare cmp x y ≤ 0)

/-- The completion-mode predicate (lines 73-77). -/
def matchesFilter (filter : String) (todo : Task) : Bool :=
  if filter = "active" then !todo.completed
  else if filter = "completed" then todo.completed
  else true

/-- The search predicate (lines 78-80). -/
def matchesSearch (L : LowerCase) (search : String) (todo : Task) : Bool :=
  includes (L.apply todo.title) (L.apply (trim search))

/-- The memoised value `visibleTodos` (lines 71-88) as a function of `todos`, `filter` and
`search`. -/
def visibleTodos (L : LowerCase) (todos : List Task) (filter search : String) : List Task :=
  sort compareTodos ((todos.filter (matchesFilter filter)).filter (matchesSearch L search))

/-- The record built by the memoised value `stats` (lines 93-97). -/
structure Stats where
  total : Nat
  done : Nat
  left : Int
  deriving DecidableEq, Repr

/-- The memoised value `stats` (lines 90-98) as a function of `todos`; `left` is the
subtraction `total - done` on numbers. -/
def stats (todos : List Task) : Stats :=
  let total := todos.length
  let done := (todos.filter (fun todo => todo.completed)).length
  { total := total, done := done, left := (total : Int) - (done : Int) }

/-- The two derived values `TodoApp` renders from its state, `visibleTodos` (lines 71-88) and
`stats` (lines 90-98): the pair the specification calls `deriveView`. -/
def deriveView (L : LowerCase) (todos : List Task) (filter search : String) :
    List Task × Stats :=
  (visibleTodos L todos filter search, stats todos)

/-! ## Application shell: what is dispatched -/

/-- The callback `addTodo` (lines 48-69) for the typed `title` and the selected `priority`;
`uuid` is the value of `crypto.randomUUID()` and `now` the time value of `new Date()`.  The
result is the dispatched action, `none` when the callback returns without dispatching. -/
def addTodo (title priority uuid : String) (now : Int) : Option Action :=
  let trimmed := trim title
  if trimmed = "" then none
  else
    some { type := "add",
           payload := { id := uuid, title := trimmed, priority := priority,
                        completed := false, createdAt := now },
           id := "" }

/-- The events of the rendered page that reach `dispatch`: submitting the form (line 104),
ticking a checkbox (line 165), pressing Delete (line 178), pressing Clear completed
(line 152). -/
inductive ShellEvent where
  | submit (title priority uuid : String) (now : Int)
  | toggle (id : String)
  | remove (id : String)
  | clearCompleted
  deriving Repr

/-- The action an event dispatches, if any. -/
def ShellEvent.dispatched : ShellEvent → Option Action
  | .submit title priority uuid now => addTodo title priority uuid now
  | .toggle id => some { type := "toggle", payload := default, id := id }
  | .remove id => some { type := "remove", payload := default, id := id }
  | .clearCompleted => some { type := "clear-completed", payload := default, id := "" }

/-- The collection held by `useReducer` after an event: the reducer applied to the dispatched
action, or the collection itself when nothing is dispatched. -/
def shellStep (todos : List Task) (e : ShellEvent) : List Task :=
  match e.dispatched with
  | some action => todoReducer todos action
  | none => todos

/-! ## The pipeline stages in the other orders

The source applies the stages in one order only.  The two definitions below apply the same
stages in the other orders the specification mentions, for comparison with `visibleTodos`. -/

/-- The stages of `visibleTodos` with the search filter applied before the completion filter. -/
def visibleSearchFirst (L : LowerCase) (todos : List Task) (filter search : String) :
    List Task :=
  sort compareTodos ((todos.filter (matchesSearch L search)).filter (matchesFilter filter))

/-- The stages of `visibleTodos` with the sort applied before the two filters. -/
def visibleSortFirst (L : LowerCase) (todos : List Task) (filter search : String) :
    List Task :=
  ((sort compareTodos todos).filter (matchesFilter filter)).filter (matchesSearch L search)

/-! ## Persistence adapter -/

/-- The constant `STORAGE_KEY` (line 3). -/
def STORAGE_KEY : String := "advanced-react-todos-v1"

/-- A value that `JSON.parse` can return; a number is kept as the 64 bits of its double. -/
inductive JsValue where
  | null
  | bool (b : Bool)
  | number (bits : Nat)
  | string (s : String)
  | array (items : List JsValue)
  | object (fields : List (String × JsValue))
  deriving Repr, Inhabited

/-- The built-ins the adapter calls that are not defined on this data model by the repository:
`JSON.parse` (`none` when it throws a `SyntaxError`), `JSON.stringify`, and
`Date.prototype.toISOString`, which gives the stored form of `createdAt`. -/
structure JSON where
  parse : String → Option JsValue
  stringify : JsValue → String
  toISOString : Int → String

/-- The object a task is in memory: the five properties set by `addTodo` (lines 56-62). -/
def Task.toJs (J : JSON) (t : Task) : JsValue :=
  .object [("id", .string t.id), ("title", .string t.title), ("priority", .string t.priority),
    ("completed", .bool t.completed), ("createdAt", .string (J.toISOString t.createdAt))]

/-- What can be thrown inside the adapter. -/
inductive Thrown where
  | storageAccess
  | jsonParse
  deriving DecidableEq, Repr

/-- The global `localStorage`: either every access throws, or it holds items by key.  There is
no quota in this model. -/
inductive LocalStorage where
  | blocked
  | items (get : String → Option String)

/-- The method `localStorage.getItem(key)`; `none` is `null`. -/
def LocalStorage.getItem : LocalStorage → String → Except Thrown (Option String)
  | .blocked, _ => .error .storageAccess
  | .items get, key => .ok (get key)

/-- The method `localStorage.setItem(key, value)`. -/
def LocalStorage.setItem : LocalStorage → String → String → Except Thrown LocalStorage
  | .blocked, _, _ => .error .storageAccess
  | .items get, key, value => .ok (.items (fun k => if k = key then some value else get k))

/-- The `try` block of `readLocalTodos` (lines 7-10). -/
def readLocalTodosTry (J : JSON) (storage : LocalStorage) : Except Thrown (List JsValue) :=
  match storage.getItem STORAGE_KEY with
  | .error e => .error e
  | .ok none => .ok []
  | .ok (some raw) =>
    if raw = "" then .ok []
    else
      match J.parse raw with
      | none => .error .jsonParse
      | some (.array items) => .ok items
      | some _ => .ok []

/-- The function `readLocalTodos()` (lines 5-14): the `try` block, and `[]` from the `catch`. -/
def readLocalTodos (J : JSON) (storage : LocalStorage) : List JsValue :=
  match readLocalTodosTry J storage with
  | .ok todos => todos
  | .error _ => []

/-- The function `saveLocalTodos(todos)` (lines 16-18); the result is the storage afterwards, or
what `setItem` throws. -/
def saveLocalTodos (J : JSON) (storage : LocalStorage) (todos : List Task) :
    Except Thrown LocalStorage :=
  storage.setItem STORAGE_KEY (J.stringify (.array (todos.map (Task.toJs J))))

/-! ## A JSON writer and reader

An instance of the built-ins for values without numbers, used to instantiate the theorems on
the adapter. -/

/-- The double quote. -/
def dquote : Char := Char.ofNat 34

/-- The reverse solidus. -/
def rsolidus : Char := Char.ofNat 92

/-- The opening brace. -/
def lbrace : Char := Char.ofNat 123

/-- The closing brace. -/
def rbrace : Char := Char.ofNat 125

/-- The lower-case hexadecimal digit of `n < 16`. -/
def hexDigit (n : Nat) : Char :=
  if n < 10 then Char.ofNat (48 + n) else Char.ofNat (87 + n)

/-- The value of a hexadecimal digit. -/
def hexValue (c : Char) : Option Nat :=
  if 48 ≤ c.toNat ∧ c.toNat ≤ 57 then some (c.toNat - 48)
  else if 97 ≤ c.toNat ∧ c.toNat ≤ 102 then some (c.toNat - 87)
  else if 65 ≤ c.toNat ∧ c.toNat ≤ 70 then some (c.toNat - 55)
  else none

/-- The escaped form of one character inside a JSON string (`QuoteJSONString`). -/
def escapeChar (c : Char) : List Char :=
  if c = dquote then [rsolidus, dquote]
  else if c = rsolidus then [rsolidus, rsolidus]
  else if c.toNat = 8 then [rsolidus, 'b']
  else if c.toNat = 9 then [rsolidus, 't']
  else if c.toNat = 10 then [rsolidus, 'n']
  else if c.toNat = 12 then [rsolidus, 'f']
  else if c.toNat = 13 then [rsolidus, 'r']
  else if c.toNat < 32 then
    [rsolidus, 'u', '0', '0', hexDigit (c.toNat / 16), hexDigit (c.toNat % 16)]
  else [c]

/-- The text of a JSON string. -/
def quoteText (s : String) : List Char :=
  dquote :: (s.data.flatMap escapeChar ++ [dquote])

mutual
/-- The text `JSON.stringify` writes for a value built from `null`, Booleans, strings, arrays
and objects.  Numbers are outside the fragment: the writer puts `null` for them and the reader
rejects digits. -/
def writeValue : JsValue → List Char
  | .null => "null".data
  | .bool true => "true".data
  | .bool false => "false".data
  | .number _ => "null".data
  | .string s => quoteText s
  | .array items => '[' :: (writeItems items ++ [']'])
  | .object fields => lbrace :: (writeFields fields ++ [rbrace])
/-- The texts of the elements of an array, separated by commas. -/
def writeItems : List JsValue → List Char
  | [] => []
  | [v] => writeValue v
  | v :: w :: vs => writeValue v ++ ',' :: writeItems (w :: vs)
/-- The texts of the members of an object, separated by commas. -/
def writeFields : List (String × JsValue) → List Char
  | [] => []
  | [(k, v)] => quoteText k ++ ':' :: writeValue v
  | (k, v) :: f :: fs => quoteText k ++ ':' :: writeValue v ++ ',' :: writeFields (f :: fs)
end

/-- Skips JSON white space. -/
def skipSpace : List Char → List Char
  | [] => []
  | c :: cs =>
    if c.toNat = 32 ∨ c.toNat = 9 ∨ c.toNat = 10 ∨ c.toNat = 13 then skipSpace cs else c :: cs

/-- The character named by a one-letter escape. -/
def unescape (e : Char) : Option Char :=
  if e = dquote then some dquote
  else if e = rsolidus then some rsolidus
  else if e = '/' then some '/'
  else if e = 'b' then some (Char.ofNat 8)
  else if e = 't' then some (Char.ofNat 9)
  else if e = 'n' then some (Char.ofNat 10)
  else if e = 'f' then some (Char.ofNat 12)
  else if e = 'r' then some (Char.ofNat 13)
  else none

/-- Reads the rest of a JSON string after its opening quote; `acc` holds the characters read so
far, last one first. -/
def readString (acc : List Char) : List Char → Option (String × List Char)
  | [] => none
  | c :: cs =>
    if c = dquote then some (String.mk acc.reverse, cs)
    else if c = rsolidus then
      match cs with
      | [] => none
      | e :: cs1 =>
        if e = 'u' then
          match cs1 with
          | h1 :: h2 :: h3 :: h4 :: cs2 =>
            match hexValue h1, hexValue h2, hexValue h3, hexValue h4 with
            | some a, some b, some c, some d =>
              readString (Char.ofNat (((a * 16 + b) * 16 + c) * 16 + d) :: acc) cs2
            | _, _, _, _ => none
          | _ => none
        else
          match unescape e with
          | some ch => readString (ch :: acc) cs1
          | none => none
    else if c.toNat < 32 then none
    else readString (c :: acc) cs

mutual
/-- Reads one JSON value without numbers; the first argument bounds the number of nested
calls. -/
def readValue : Nat → List Char → Option (JsValue × List Char)
  | 0, _ => none
  | n + 1, cs =>
    match skipSpace cs with
    | [] => none
    | c :: r =>
      if c = dquote then
        match readString [] r with
        | some (s, r1) => some (.string s, r1)
        | none => none
      else if c = '[' then
        match skipSpace r with
        | ']' :: r1 => some (.array [], r1)
        | _ =>
          match readItems n r with
          | some (items, r1) => some (.array items, r1)
          | none => none
      else if c = lbrace then
        match skipSpace r with
        | [] => none
        | d :: r1 =>
          if d = rbrace then some (.object [], r1)
          else
            match readFields n r with
            | some (fields, r2) => some (.object fields, r2)
            | none => none
      else
        match c :: r with
        | 'n' :: 'u' :: 'l' :: 'l' :: r1 => some (.null, r1)
        | 't' :: 'r' :: 'u' :: 'e' :: r1 => some (.bool true, r1)
        | 'f' :: 'a' :: 'l' :: 's' :: 'e' :: r1 => some (.bool false, r1)
        | _ => none
/-- Reads the elements of an array up to the closing bracket. -/
def readItems : Nat → List Char → Option (List JsValue × List Char)
  | 0, _ => none
  | n + 1, cs =>
    match readValue n cs with
    | none => none
    | some (v, r) =>
      match skipSpace r with
      | ',' :: r1 =>
        match readItems n r1 with
        | some (vs, r2) => some (v :: vs, r2)
        | none => none
      | ']' :: r1 => some ([v], r1)
      | _ => none
/-- Reads the members of an object up to the closing brace. -/
def readFields : Nat → List Char → Option (List (String × JsValue) × List Char)
  | 0, _ => none
  | n + 1, cs =>
    match skipSpace cs with
    | [] => none
    | q :: r =>
      if q = dquote then
        match readString [] r with
        | none => none
        | some (k, r1) =>
          match skipSpace r1 with
          | ':' :: r2 =>
            match readValue n r2 with
            | none => none
            | some (v, r3) =>
              match skipSpace r3 with
              | [] => none
              | d :: r4 =>
                if d = ',' then
                  match readFields n r4 with
                  | some (fs, r5) => some ((k, v) :: fs, r5)
                  | none => none
                else if d = rbrace then some ([(k, v)], r4)
                else none
          | _ => none
      else none
end

/-- A reader for JSON texts without numbers: one value, then white space only. -/
def readJson (raw : String) : Option JsValue :=
  match readValue (raw.length + 1) raw.data with
  | some (v, r) => if skipSpace r = [] then some v else none
  | none => none

/-- The writer and the reader as an instance of the built-ins; a time value is written in
decimal. -/
def textJson : JSON where
  parse := readJson
  stringify := fun v => String.mk (writeValue v)
  toISOString := fun t => toString t

/-! ## The sort of the engine on short arrays

`Array.prototype.sort` leaves the order to the engine when the comparator is not consistent,
which here happens exactly when a priority is outside the rank table.  The definitions below
follow the sort of the V8 engine (`ArrayTimSortImpl`) for an array of fewer than 64 elements,
where the minimum run length is the length of the array: `CountAndMakeRun` takes the first run
and `BinaryInsertionSort` inserts the remaining elements one by one.  Longer arrays are cut
into several runs that are merged; that part is not modelled. -/

/-- The scan of `CountAndMakeRun`: the elements that continue the run after `prev`, and what is
left. -/
def extendRun {α : Type} (cmp : α → α → Option Int) (descending : Bool) :
    α → List α → List α × List α
  | _, [] => ([], [])
  | prev, cur :: tl =>
    if (if descending then decide (0 ≤ sortCompare cmp cur prev)
        else decide (sortCompare cmp cur prev < 0)) then ([], cur :: tl)
    else ((cur :: (extendRun cmp descending cur tl).1), (extendRun cmp descending cur tl).2)

/-- The routine `CountAndMakeRun`: the first run, reversed when it is descending, and the
elements after it. -/
def countAndMakeRun {α : Type} (cmp : α → α → Option Int) : List α → List α × List α
  | [] => ([], [])
  | [a] => ([a], [])
  | a :: b :: tl =>
    if sortCompare cmp b a < 0 then
      ((a :: b :: (extendRun cmp true b tl).1).reverse, (extendRun cmp true b tl).2)
    else (a :: b :: (extendRun cmp false b tl).1, (extendRun cmp false b tl).2)

/-- The binary search of `BinaryInsertionSort` between `left` and `right`; the first argument
bounds the number of steps. -/
def binarySearch {α : Type} (cmp : α → α → Option Int) (pivot : α) (work : List α) :
    Nat → Nat → Nat → Nat
  | 0, left, _ => left
  | fuel + 1, left, right =>
    if left < right then
      match work[left + (right - left) / 2]? with
      | some x =>
        if sortCompare cmp pivot x < 0 then
          binarySearch cmp pivot work fuel left (left + (right - left) / 2)
        else binarySearch cmp pivot work fuel (left + (right - left) / 2 + 1) right
      | none => left
    else left

/-- One round of `BinaryInsertionSort`: `pivot` is put into the sorted part `work`. -/
def binaryInsert {α : Type} (cmp : α → α → Option Int) (work : List α) (pivot : α) : List α :=
  work.take (binarySearch cmp pivot work work.length 0 work.length) ++
    pivot :: work.drop (binarySearch cmp pivot work work.length 0 work.length)

/-- The sort of the V8 engine for an array of fewer than 64 elements; `none` for a longer
array, which is outside this model. -/
def v8Sort {α : Type} (cmp : α → α → Option Int) (l : List α) : Option (List α) :=
  if l.length < 64 then
    some ((countAndMakeRun cmp l).2.foldl (binaryInsert cmp) (countAndMakeRun cmp l).1)
  else none

/-- The value `visibleTodos` (lines 71-88) with the sort of the V8 engine as the built-in. -/
def visibleTodosV8 (L : LowerCase) (todos : List Task) (filter search : String) :
    Option (List Task) :=
  v8Sort compareTodos ((todos.filter (matchesFilter filter)).filter (matchesSearch L search))

/-! ## Auxiliary definitions for the sort order -/

/-- The number held by `rank[p]` when `p` is an own property of the table, and `3` otherwise. -/
def rankNat (p : String) : Nat :=
  match rank p with
  | .num n => n
  | _ => 3

/-- The order the specification describes: smaller rank first, and for equal ranks the later
`createdAt` first. -/
def ranksBefore (a b : Task) : Prop :=
  rankNat a.priority < rankNat b.priority ∨
    (rankNat a.priority = rankNat b.priority ∧ b.createdAt ≤ a.createdAt)

instance ranksBefore_decidable : DecidableRel ranksBefore := fun a b => by
  unfold ranksBefore
  exact inferInstance

instance ranksBefore_total : IsTotal Task ranksBefore where
  total a b := by
    unfold ranksBefore
    omega

instance ranksBefore_trans : IsTrans Task ranksBefore where
  trans a b c := by
    unfold ranksBefore
    omega

/-- Puts `a` behind the elements that are at or before it (used in proofs only). -/
def insertAfter {α : Type} (r : α → α → Prop) [DecidableRel r] (a : α) (l : List α) : List α :=
  l.takeWhile (fun x => decide (r x a)) ++ a :: l.dropWhile (fun x => decide (r x a))

/-- The comparator of the view with the rank read through `rankNat`: it agrees with
`compareTodos` on listed priorities and is consistent on all tasks (used in proofs only). -/
def compareListed (a b : Task) : Option Int :=
  if rankNat a.priority ≠ rankNat b.priority then
    some ((rankNat a.priority : Int) - (rankNat b.priority : Int))
  else some (b.createdAt - a.createdAt)

/-- The priorities the form offers (lines 117-119). -/
def priorities : List String := ["high", "medium", "low"]

/-! ## Sample data -/

/-- A sample task: medium priority, not completed. -/
def sampleMilk : Task := ⟨"1", "buy milk", "medium", false, 1000⟩

/-- A sample task: high priority, completed. -/
def sampleDog : Task := ⟨"2", "Walk dog", "high", true, 2000⟩

/-- A sample task: low priority, not completed. -/
def sampleMail : Task := ⟨"3", "send mail", "low", false, 3000⟩

/-- A sample collection of seven tasks created at the same time, the fifth with a priority that
is not in the rank table. -/
def sampleUnlisted : List Task :=
  [⟨"1", "a", "high", false, 0⟩, ⟨"2", "b", "high", false, 0⟩, ⟨"3", "c", "low", false, 0⟩,
   ⟨"4", "d", "high", false, 0⟩, ⟨"5", "e", "urgent", false, 0⟩, ⟨"6", "f", "high", false, 0⟩,
   ⟨"7", "g", "high", false, 0⟩]

/-! ## The reducer, branch by branch -/

theorem todoReducer_add (C : List Task) (t : Task) (i : String) :
    todoReducer C ⟨"add", t, i⟩ = t :: C := by
  simp [todoReducer]

theorem todoReducer_toggle (C : List Task) (p : Task) (i : String) :
    todoReducer C ⟨"toggle", p, i⟩ =
      C.map (fun todo => if todo.id = i then { todo with completed := !todo.completed } else todo) := by
  simp [todoReducer]

theorem todoReducer_remove (C : List Task) (p : Task) (i : String) :
    todoReducer C ⟨"remove", p, i⟩ = C.filter (fun todo => decide (todo.id ≠ i)) := by
  simp [todoReducer]

theorem todoReducer_clear (C : List Task) (p : Task) (i : String) :
    todoReducer C ⟨"clear-completed", p, i⟩ = C.filter (fun todo => !todo.completed) := by
  simp [todoReducer]

theorem todoReducer_other (C : List Task) (a : Action) (h1 : a.type ≠ "add")
    (h2 : a.type ≠ "toggle") (h3 : a.type ≠ "remove") (h4 : a.type ≠ "clear-completed") :
    todoReducer C a = C := by
  simp [todoReducer, h1, h2, h3, h4]

/-- Toggling an id twice maps every task back to itself. -/
theorem toggle_toggle_task (i : String) (t : Task) :
    (fun todo : Task => if todo.id = i then { todo with completed := !todo.completed } else todo)
      ((fun todo : Task => if todo.id = i then { todo with completed := !todo.completed } else todo) t)
      = t := by
  by_cases h : t.id = i
  · cases t
    simp_all
  · simp [h]

/-- Removing an id that occurs exactly once shortens the list by one. -/
theorem length_filter_ne_id (i : String) :
    ∀ C : List Task, (C.map Task.id).Nodup → i ∈ C.map Task.id →
      (C.filter (fun todo => decide (todo.id ≠ i))).length + 1 = C.length
  | [], _, h => by simp at h
  | t :: C, hn, h => by
    rw [List.map_cons, List.nodup_cons] at hn
    by_cases ht : t.id = i
    · have hall : ∀ a ∈ C, (fun todo : Task => decide (todo.id ≠ i)) a = true := by
        intro a ha
        have : a.id ≠ i := fun e => hn.1 (by rw [ht, ← e]; exact List.mem_map_of_mem _ ha)
        simpa using this
      have hC : C.filter (fun todo => decide (todo.id ≠ i)) = C := List.filter_eq_self.2 hall
      rw [List.filter_cons, hC]
      simp [ht]
    · have hi : i ∈ C.map Task.id := by
        rcases List.mem_cons.1 (by simpa using h : i ∈ t.id :: C.map Task.id) with e | e
        · exact absurd e.symm ht
        · exact e
      have ih := length_filter_ne_id i C hn.2 hi
      have hk : (fun todo : Task => decide (todo.id ≠ i)) t = true := by simpa using ht
      rw [List.filter_cons, if_pos hk, List.length_cons, List.length_cons, ih]

/-! ## Transition engine: the four actions and the fallback -/

/-- C1: `toggle` keeps the length and acts position by position: a task whose id equals the
target comes back with `completed` negated and every other field equal, a task whose id differs
comes back itself; the one-task scenario of the specification yields the same task with
`completed = true`. -/
theorem toggle_pointwise (C : List Task) (p : Task) (i : String) (t1 : Int) :
    ((todoReducer C ⟨"toggle", p, i⟩).length = C.length ∧
      ∀ (k : Nat) (t : Task), C[k]? = some t →
        ∃ r, (todoReducer C ⟨"toggle", p, i⟩)[k]? = some r ∧
          (t.id = i → r.id = t.id ∧ r.title = t.title ∧ r.priority = t.priority ∧
            r.createdAt = t.createdAt ∧ r.completed = !t.completed) ∧
          (t.id ≠ i → r = t)) ∧
    todoReducer [⟨"1", "buy milk", "medium", false, t1⟩] ⟨"toggle", p, "1"⟩ =
      [⟨"1", "buy milk", "medium", true, t1⟩] := by
  refine ⟨⟨?_, ?_⟩, ?_⟩
  · rw [todoReducer_toggle, List.length_map]
  · intro k t hk
    rw [todoReducer_toggle, List.getElem?_map, hk]
    refine ⟨_, rfl, ?_, ?_⟩
    · intro h
      simp [h]
    · intro h
      simp [h]
  · simp [todoReducer]

/-- Instance of C1 on a two-task collection, at the position of the toggled task. -/
theorem toggle_pointwise_witness :
    [sampleMilk, sampleDog][0]? = some sampleMilk ∧
    sampleMilk.id = "1" ∧
    ∃ r, (todoReducer [sampleMilk, sampleDog] ⟨"toggle", sampleDog, "1"⟩)[0]? = some r ∧
      r.id = sampleMilk.id ∧ r.title = sampleMilk.title ∧ r.priority = sampleMilk.priority ∧
      r.createdAt = sampleMilk.createdAt ∧ r.completed = !sampleMilk.completed :=
  ⟨rfl, rfl,
    match (toggle_pointwise [sampleMilk, sampleDog] sampleDog "1" 0).1.2 0 sampleMilk rfl with
    | ⟨r, hr, hflip, _⟩ => ⟨r, hr, hflip rfl⟩⟩

/-- C2: `add` returns a collection one longer, whose first element is the payload and whose
remaining elements are the old collection in its order. -/
theorem add_prepends (C : List Task) (t : Task) (i : String) :
    (todoReducer C ⟨"add", t, i⟩).length = C.length + 1 ∧
    (todoReducer C ⟨"add", t, i⟩).head? = some t ∧
    (todoReducer C ⟨"add", t, i⟩).tail = C := by
  rw [todoReducer_add]
  simp

/-- C3: `remove` returns the sub-sequence of the tasks whose id differs from the target: it is a
sublist of the collection (relative order kept), it holds no task with the target id, every task
with another id occurs as often as before; with pairwise distinct ids and the target present the
result is one shorter. -/
theorem remove_subsequence (C : List Task) (p : Task) (i : String) :
    (todoReducer C ⟨"remove", p, i⟩).Sublist C ∧
    (∀ t, t ∈ todoReducer C ⟨"remove", p, i⟩ ↔ t ∈ C ∧ t.id ≠ i) ∧
    (∀ t, t.id ≠ i → (todoReducer C ⟨"remove", p, i⟩).count t = C.count t) ∧
    ((C.map Task.id).Nodup → i ∈ C.map Task.id →
      (todoReducer C ⟨"remove", p, i⟩).length = C.length - 1) := by
  rw [todoReducer_remove]
  refine ⟨List.filter_sublist _, ?_, ?_, ?_⟩
  · intro t
    simp [List.mem_filter]
  · intro t ht
    exact List.count_filter (by simpa using ht)
  · intro hn hi
    have := length_filter_ne_id i C hn hi
    omega

/-- Instance of C3: removing id `"2"` from three tasks with distinct ids leaves two. -/
theorem remove_subsequence_witness :
    ([sampleMilk, sampleDog, sampleMail].map Task.id).Nodup ∧
    "2" ∈ [sampleMilk, sampleDog, sampleMail].map Task.id ∧
    (todoReducer [sampleMilk, sampleDog, sampleMail] ⟨"remove", sampleMilk, "2"⟩).length =
      [sampleMilk, sampleDog, sampleMail].length - 1 :=
  ⟨by decide, by decide,
    (remove_subsequence [sampleMilk, sampleDog, sampleMail] sampleMilk "2").2.2.2
      (by decide) (by decide)⟩

/-- C4: `clear-completed` returns the sub-sequence of the tasks with `completed = false`: it is
a sublist of the collection (relative order kept), no task in it is completed, and every
non-completed task is kept, as often as it occurred. -/
theorem clear_completed_subsequence (C : List Task) (p : Task) (i : String) :
    (todoReducer C ⟨"clear-completed", p, i⟩).Sublist C ∧
    (∀ t ∈ todoReducer C ⟨"clear-completed", p, i⟩, t.completed = false) ∧
    (∀ t ∈ C, t.completed = false → t ∈ todoReducer C ⟨"clear-completed", p, i⟩) ∧
    (∀ t, t.completed = false →
      (todoReducer C ⟨"clear-completed", p, i⟩).count t = C.count t) := by
  rw [todoReducer_clear]
  refine ⟨List.filter_sublist _, ?_, ?_, ?_⟩
  · intro t ht
    simpa using (List.mem_filter.1 ht).2
  · intro t ht hc
    exact List.mem_filter.2 ⟨ht, by simp [hc]⟩
  · intro t hc
    exact List.count_filter (by simp [hc])

/-- Instance of C4: the non-completed sample task survives `clear-completed`. -/
theorem clear_completed_subsequence_witness :
    sampleMilk ∈ [sampleMilk, sampleDog] ∧ sampleMilk.completed = false ∧
    sampleMilk ∈ todoReducer [sampleMilk, sampleDog] ⟨"clear-completed", sampleDog, ""⟩ :=
  ⟨by decide, rfl,
    (clear_completed_subsequence [sampleMilk, sampleDog] sampleDog "").2.2.1 sampleMilk
      (by decide) rfl⟩

/-- C5: for an id carried by no task of the collection, `toggle` and `remove` both return the
collection itself. -/
theorem absent_id_noop (C : List Task) (p q : Task) (i : String) (h : i ∉ C.map Task.id) :
    todoReducer C ⟨"toggle", p, i⟩ = C ∧ todoReducer C ⟨"remove", q, i⟩ = C := by
  have hne : ∀ a ∈ C, a.id ≠ i := fun a ha e => h (e ▸ List.mem_map_of_mem _ ha)
  constructor
  · rw [todoReducer_toggle]
    conv_rhs => rw [← List.map_id C]
    apply List.map_congr_left
    intro a ha
    simp [hne a ha]
  · rw [todoReducer_remove]
    exact List.filter_eq_self.2 (fun a ha => by simpa using hne a ha)

/-- Instance of C5: id `"9"` is absent from a two-task collection. -/
theorem absent_id_noop_witness :
    "9" ∉ [sampleMilk, sampleDog].map Task.id ∧
    todoReducer [sampleMilk, sampleDog] ⟨"toggle", sampleMilk, "9"⟩ = [sampleMilk, sampleDog] ∧
    todoReducer [sampleMilk, sampleDog] ⟨"remove", sampleDog, "9"⟩ = [sampleMilk, sampleDog] :=
  ⟨by decide, absent_id_noop [sampleMilk, sampleDog] sampleMilk sampleDog "9" (by decide)⟩

/-- C6: `todoReducer` is a total function, and on an action whose type is none of `add`,
`toggle`, `remove`, `clear-completed` it returns the collection unchanged. -/
theorem unknown_action_identity (C : List Task) (a : Action)
    (h : a.type ∉ ["add", "toggle", "remove", "clear-completed"]) :
    todoReducer C a = C := by
  simp only [List.mem_cons, List.mem_singleton, not_or, List.not_mem_nil, or_false] at h
  exact todoReducer_other C a h.1 h.2.1 h.2.2.1 h.2.2.2

/-- Instance of C6: an action of type `"rename"` leaves a two-task collection as it is. -/
theorem unknown_action_identity_witness :
    (⟨"rename", sampleMilk, "1"⟩ : Action).type ∉ ["add", "toggle", "remove", "clear-completed"] ∧
    todoReducer [sampleMilk, sampleDog] ⟨"rename", sampleMilk, "1"⟩ = [sampleMilk, sampleDog] :=
  ⟨by decide, unknown_action_identity [sampleMilk, sampleDog] ⟨"rename", sampleMilk, "1"⟩ (by decide)⟩

/-- C7: toggling the same present id twice gives back the collection. -/
theorem toggle_self_inverse (C : List Task) (p q : Task) (i : String)
    (_h : i ∈ C.map Task.id) :
    todoReducer (todoReducer C ⟨"toggle", p, i⟩) ⟨"toggle", q, i⟩ = C := by
  rw [todoReducer_toggle, todoReducer_toggle, List.map_map]
  conv_rhs => rw [← List.map_id C]
  apply List.map_congr_left
  intro a _
  exact toggle_toggle_task i a

/-- Instance of C7: id `"2"` is present and toggling it twice restores the collection. -/
theorem toggle_self_inverse_witness :
    "2" ∈ [sampleMilk, sampleDog].map Task.id ∧
    todoReducer (todoReducer [sampleMilk, sampleDog] ⟨"toggle", sampleMilk, "2"⟩)
      ⟨"toggle", sampleMilk, "2"⟩ = [sampleMilk, sampleDog] :=
  ⟨by decide, toggle_self_inverse [sampleMilk, sampleDog] sampleMilk sampleMilk "2" (by decide)⟩

/-- C8: `clear-completed` is idempotent. -/
theorem clear_completed_idempotent (C : List Task) (p q : Task) (i j : String) :
    todoReducer (todoReducer C ⟨"clear-completed", p, i⟩) ⟨"clear-completed", q, j⟩ =
      todoReducer C ⟨"clear-completed", p, i⟩ := by
  rw [todoReducer_clear, todoReducer_clear, List.filter_filter]
  simp

/-! ## View deriver: sort order -/

theorem rank_of_priority {p : String} (h : p ∈ priorities) : rank p = .num (rankNat p) := by
  simp only [priorities, List.mem_cons, List.mem_singleton, List.not_mem_nil, or_false] at h
  rcases h with h | h | h <;> subst h <;> decide

/-- On tasks with listed priorities the comparator puts `a` at or before `b` exactly when
`ranksBefore a b`. -/
theorem sortCompare_iff_ranksBefore {a b : Task} (ha : a.priority ∈ priorities)
    (hb : b.priority ∈ priorities) :
    sortCompare compareTodos a b ≤ 0 ↔ ranksBefore a b := by
  have ea := rank_of_priority ha
  have eb := rank_of_priority hb
  unfold sortCompare compareTodos ranksBefore
  rw [ea, eb]
  by_cases h : rankNat a.priority = rankNat b.priority
  · simp [h]
  · have h' : RankValue.num (rankNat a.priority) ≠ RankValue.num (rankNat b.priority) := by
      intro e
      exact h (RankValue.num.inj e)
    simp only [h', ne_eq, not_false_eq_true, if_true, RankValue.sub, Option.getD_some]
    omega

theorem orderedInsert_congr {α : Type} (r s : α → α → Prop) [DecidableRel r] [DecidableRel s]
    (a : α) : ∀ l : List α, (∀ b ∈ l, r a b ↔ s a b) → l.orderedInsert r a = l.orderedInsert s a
  | [], _ => rfl
  | b :: l, h => by
    have hb : r a b ↔ s a b := h b (List.mem_cons_self _ _)
    have ih := orderedInsert_congr r s a l (fun c hc => h c (List.mem_cons_of_mem _ hc))
    by_cases hr : r a b
    · simp [List.orderedInsert, hr, hb.1 hr]
    · have hs : ¬ s a b := fun e => hr (hb.2 e)
      simp [List.orderedInsert, hr, hs, ih]

theorem insertionSort_congr {α : Type} (r s : α → α → Prop) [DecidableRel r] [DecidableRel s] :
    ∀ l : List α, (∀ a ∈ l, ∀ b ∈ l, r a b ↔ s a b) → l.insertionSort r = l.insertionSort s
  | [], _ => rfl
  | a :: l, h => by
    have ih := insertionSort_congr r s l
      (fun x hx y hy => h x (List.mem_cons_of_mem _ hx) y (List.mem_cons_of_mem _ hy))
    rw [List.insertionSort_cons_eq_take_drop, List.insertionSort_cons_eq_take_drop, ih]
    rw [← List.orderedInsert_eq_take_drop, ← List.orderedInsert_eq_take_drop]
    apply orderedInsert_congr
    intro b hb
    exact h a (List.mem_cons_self _ _) b
      (List.mem_cons_of_mem _ ((List.mem_insertionSort s).1 hb))

/-- Sorting with the comparator of the view yields a list ordered by `ranksBefore`, provided
every priority is a listed one. -/
theorem sort_compareTodos_sorted (l : List Task) (h : ∀ t ∈ l, t.priority ∈ priorities) :
    (sort compareTodos l).Pairwise ranksBefore := by
  have e : sort compareTodos l = l.insertionSort ranksBefore :=
    insertionSort_congr _ _ l (fun a ha b hb => sortCompare_iff_ranksBefore (h a ha) (h b hb))
  rw [e]
  exact List.sorted_insertionSort ranksBefore l

theorem mem_sort {α : Type} (cmp : α → α → Option Int) (l : List α) (x : α) :
    x ∈ sort cmp l ↔ x ∈ l :=
  List.mem_insertionSort _

theorem mem_visibleTodos {L : LowerCase} {todos : List Task} {filter search : String} {x : Task}
    (h : x ∈ visibleTodos L todos filter search) : x ∈ todos := by
  unfold visibleTodos at h
  rw [mem_sort] at h
  exact (List.mem_filter.1 (List.mem_filter.1 h).1).1

theorem includes_empty (s : String) : includes s "" = true := by
  unfold includes
  cases s.data <;> simp [List.tails]

theorem matchesSearch_blank (L : LowerCase) (search : String) (h : trim search = "")
    (todo : Task) : matchesSearch L search todo = true := by
  have e : L.apply "" = "" := (L.ascii "" (by simp)).trans (by decide)
  unfold matchesSearch
  rw [h, e]
  exact includes_empty _

theorem matchesFilter_other (filter : String) (h1 : filter ≠ "active")
    (h2 : filter ≠ "completed") (todo : Task) : matchesFilter filter todo = true := by
  simp [matchesFilter, h1, h2]

/-- C9: when every priority is one of `high`, `medium`, `low`, the visible sequence is ordered
by rank ascending (`high` 0, `medium` 1, `low` 2) and, for equal ranks, by `createdAt`
descending, whatever the filter mode and the search text; three tasks of priorities low, high,
medium created at `t1`, `t2`, `t3` are shown, for mode `all` and empty search, in the order
high, medium, low. -/
theorem visible_ordered (L : LowerCase) (todos : List Task) (filter search : String)
    (i1 i2 i3 s1 s2 s3 : String) (c1 c2 c3 : Bool) (t1 t2 t3 : Int) :
    ((∀ t ∈ todos, t.priority ∈ ["high", "medium", "low"]) →
      ∀ (p q : Nat) (a b : Task), p < q →
        (visibleTodos L todos filter search)[p]? = some a →
        (visibleTodos L todos filter search)[q]? = some b →
        ∃ ra rb : Nat, rank a.priority = .num ra ∧ rank b.priority = .num rb ∧ ra ≤ rb ∧
          (ra = rb → b.createdAt ≤ a.createdAt)) ∧
    (t1 < t2 → t2 < t3 →
      visibleTodos L [⟨i1, s1, "low", c1, t1⟩, ⟨i2, s2, "high", c2, t2⟩, ⟨i3, s3, "medium", c3, t3⟩]
        "all" "" =
      [⟨i2, s2, "high", c2, t2⟩, ⟨i3, s3, "medium", c3, t3⟩, ⟨i1, s1, "low", c1, t1⟩]) := by
  constructor
  · intro hv p q a b hpq hp hq
    have hsorted : (visibleTodos L todos filter search).Pairwise ranksBefore := by
      unfold visibleTodos
      apply sort_compareTodos_sorted
      intro t ht
      exact hv t (List.mem_filter.1 (List.mem_filter.1 ht).1).1
    obtain ⟨hp', ea⟩ := List.getElem?_eq_some_iff.1 hp
    obtain ⟨hq', eb⟩ := List.getElem?_eq_some_iff.1 hq
    have hab : ranksBefore a b := by
      have := List.pairwise_iff_getElem.1 hsorted p q hp' hq' hpq
      rwa [ea, eb] at this
    have va : a.priority ∈ priorities := hv a (mem_visibleTodos (List.mem_iff_getElem?.2 ⟨p, hp⟩))
    have vb : b.priority ∈ priorities := hv b (mem_visibleTodos (List.mem_iff_getElem?.2 ⟨q, hq⟩))
    refine ⟨rankNat a.priority, rankNat b.priority, rank_of_priority va, rank_of_priority vb, ?_⟩
    unfold ranksBefore at hab
    omega
  · intro _ _
    have hs : ∀ todo, matchesSearch L "" todo = true :=
      matchesSearch_blank L "" (by decide)
    simp [visibleTodos, matchesFilter, hs, sort, sortCompare, compareTodos, rank, RankValue.sub]

/-- Instance of C9: in the view of three sample tasks the first two positions hold ranks in
ascending order. -/
theorem visible_ordered_witness :
    (∀ t ∈ [sampleMilk, sampleDog, sampleMail], t.priority ∈ ["high", "medium", "low"]) ∧
    (0 : Nat) < 1 ∧
    (visibleTodos asciiLowerCase [sampleMilk, sampleDog, sampleMail] "all" "")[0]? =
      some sampleDog ∧
    (visibleTodos asciiLowerCase [sampleMilk, sampleDog, sampleMail] "all" "")[1]? =
      some sampleMilk ∧
    (∃ ra rb : Nat, rank sampleDog.priority = .num ra ∧ rank sampleMilk.priority = .num rb ∧
      ra ≤ rb ∧ (ra = rb → sampleMilk.createdAt ≤ sampleDog.createdAt)) ∧
    ((1 : Int) < 2 ∧ (2 : Int) < 3 ∧
      visibleTodos asciiLowerCase
        [⟨"a", "x", "low", false, 1⟩, ⟨"b", "y", "high", false, 2⟩, ⟨"c", "z", "medium", false, 3⟩]
        "all" "" =
      [⟨"b", "y", "high", false, 2⟩, ⟨"c", "z", "medium", false, 3⟩, ⟨"a", "x", "low", false, 1⟩]) :=
  ⟨by decide, by decide, by decide, by decide,
    (visible_ordered asciiLowerCase [sampleMilk, sampleDog, sampleMail] "all" ""
      "" "" "" "" "" "" false false false 0 0 0).1 (by decide) 0 1 sampleDog sampleMilk
      (by decide) (by decide) (by decide),
    by decide, by decide,
    (visible_ordered asciiLowerCase [] "" "" "a" "b" "c" "x" "y" "z" false false false 1 2 3).2
      (by decide) (by decide)⟩

/-- C10: the completion-mode stage keeps every task for mode `all`, exactly the tasks with
`completed = false` for mode `active`, exactly the tasks with `completed = true` for mode
`completed`, and every task for any other mode value. -/
theorem completion_stage (todos : List Task) (todo : Task) (filter : String) :
    (matchesFilter "all" todo = true ∧ todos.filter (matchesFilter "all") = todos) ∧
    ((matchesFilter "active" todo = true ↔ todo.completed = false) ∧
      ∀ t, t ∈ todos.filter (matchesFilter "active") ↔ t ∈ todos ∧ t.completed = false) ∧
    ((matchesFilter "completed" todo = true ↔ todo.completed = true) ∧
      ∀ t, t ∈ todos.filter (matchesFilter "completed") ↔ t ∈ todos ∧ t.completed = true) ∧
    (filter ≠ "active" → filter ≠ "completed" →
      matchesFilter filter todo = true ∧
      todos.filter (matchesFilter filter) = todos.filter (matchesFilter "all")) := by
  refine ⟨⟨by simp [matchesFilter], ?_⟩, ⟨by simp [matchesFilter], ?_⟩,
    ⟨by simp [matchesFilter], ?_⟩, ?_⟩
  · exact List.filter_eq_self.2 (fun a _ => by simp [matchesFilter])
  · intro t
    simp [List.mem_filter, matchesFilter]
  · intro t
    simp [List.mem_filter, matchesFilter]
  · intro h1 h2
    refine ⟨matchesFilter_other filter h1 h2 todo, ?_⟩
    rw [List.filter_eq_self.2 (fun a _ => matchesFilter_other filter h1 h2 a),
      List.filter_eq_self.2 (fun a _ => matchesFilter_other "all" (by decide) (by decide) a)]

/-- Instance of C10: the mode value `"done"` is neither `active` nor `completed` and keeps a
completed task. -/
theorem completion_stage_witness :
    "done" ≠ "active" ∧ "done" ≠ "completed" ∧
    matchesFilter "done" sampleDog = true ∧
    [sampleMilk, sampleDog].filter (matchesFilter "done") =
      [sampleMilk, sampleDog].filter (matchesFilter "all") :=
  ⟨by decide, by decide,
    (completion_stage [sampleMilk, sampleDog] sampleDog "done").2.2.2 (by decide) (by decide)⟩

/-! ## View deriver: search stage and stats -/

theorem includes_iff (s sub : String) :
    includes s sub = true ↔ ∃ pre post : List Char, s.data = pre ++ sub.data ++ post := by
  unfold includes
  rw [List.any_eq_true]
  constructor
  · rintro ⟨t, ht, hp⟩
    obtain ⟨pre, hpre⟩ := (List.mem_tails _ _).1 ht
    obtain ⟨post, hpost⟩ := List.isPrefixOf_iff_prefix.1 hp
    exact ⟨pre, post, by rw [← hpre, ← hpost, List.append_assoc]⟩
  · rintro ⟨pre, post, h⟩
    refine ⟨sub.data ++ post, (List.mem_tails _ _).2 ⟨pre, ?_⟩, ?_⟩
    · rw [h, List.append_assoc]
    · exact List.isPrefixOf_iff_prefix.2 ⟨post, rfl⟩

theorem trim_of_all_whiteSpace (s : String) (h : ∀ c ∈ s.data, isWhiteSpace c = true) :
    trim s = "" := by
  have e : s.data.dropWhile isWhiteSpace = [] := List.dropWhile_eq_nil_iff.2 h
  unfold trim
  rw [e]
  rfl

/-- C11: the search stage keeps a task exactly when the lower-cased title contains the
lower-cased trimmed search text as a contiguous run of characters; hence a search text that is
empty or made of white space keeps every task, and the search text `MIL` keeps a task titled
`buy milk`. -/
theorem search_stage (L : LowerCase) (search : String) (todo : Task)
    (i p : String) (c : Bool) (t : Int) :
    (matchesSearch L search todo = true ↔
      ∃ pre post : List Char,
        (L.apply todo.title).data = pre ++ (L.apply (trim search)).data ++ post) ∧
    ((∀ ch ∈ search.data, isWhiteSpace ch = true) → matchesSearch L search todo = true) ∧
    matchesSearch L "MIL" ⟨i, "buy milk", p, c, t⟩ = true := by
  refine ⟨includes_iff _ _, ?_, ?_⟩
  · intro h
    exact matchesSearch_blank L search (trim_of_all_whiteSpace search h) todo
  · have e1 : L.apply "buy milk" = "buy milk" := (L.ascii "buy milk" (by decide)).trans (by decide)
    have e2 : L.apply (trim "MIL") = "mil" := by
      have : trim "MIL" = "MIL" := by decide
      rw [this]
      exact (L.ascii "MIL" (by decide)).trans (by decide)
    unfold matchesSearch
    rw [e1, e2]
    decide

/-- Instance of C11: a search text of two blanks and a tab keeps the sample task. -/
theorem search_stage_witness :
    (∀ ch ∈ "  \t".data, isWhiteSpace ch = true) ∧
    matchesSearch asciiLowerCase "  \t" sampleDog = true :=
  ⟨by decide, (search_stage asciiLowerCase "  \t" sampleDog "" "" false 0).2.1 (by decide)⟩

/-- C12: `total` is the number of tasks, `done` the number of completed tasks, `left` is
`total - done`, so `total = done + left` with `left` never negative; the empty collection has
stats `0, 0, 0`. -/
theorem stats_counts (C : List Task) :
    (stats C).total = C.length ∧
    (stats C).done = C.countP (fun todo => todo.completed) ∧
    (stats C).left = ((stats C).total : Int) - ((stats C).done : Int) ∧
    ((stats C).total : Int) = ((stats C).done : Int) + (stats C).left ∧
    0 ≤ (stats C).left ∧
    stats [] = ⟨0, 0, 0⟩ := by
  have hle : (C.filter (fun todo => todo.completed)).length ≤ C.length := List.length_filter_le _ _
  refine ⟨rfl, ?_, rfl, ?_, ?_, rfl⟩
  · simp only [stats]
    exact (List.countP_eq_length_filter _ _).symm
  · simp only [stats]
    omega
  · simp only [stats]
    omega

/-- C13: the stats do not depend on the filter mode or the search text, in particular not when
the visible sequence is empty; the view of the empty collection for mode `all` and empty search
is the empty sequence with stats `0, 0, 0`. -/
theorem stats_whole_collection (L : LowerCase) (C : List Task) (f1 s1 f2 s2 : String) :
    (deriveView L C f1 s1).2 = (deriveView L C f2 s2).2 ∧
    ((deriveView L C f1 s1).1 = [] →
      (deriveView L C f1 s1).2 = stats C ∧ (deriveView L C f1 s1).2.total = C.length) ∧
    deriveView L [] "all" "" = ([], ⟨0, 0, 0⟩) := by
  refine ⟨rfl, fun _ => ⟨rfl, rfl⟩, ?_⟩
  simp [deriveView, visibleTodos, sort, stats]

/-- Instance of C13: searching the sample tasks for `zzz` shows nothing and the stats still
count both tasks. -/
theorem stats_whole_collection_witness :
    (deriveView asciiLowerCase [sampleMilk, sampleDog] "all" "zzz").1 = [] ∧
    (deriveView asciiLowerCase [sampleMilk, sampleDog] "all" "zzz").2 =
      stats [sampleMilk, sampleDog] ∧
    (deriveView asciiLowerCase [sampleMilk, sampleDog] "all" "zzz").2.total =
      [sampleMilk, sampleDog].length :=
  ⟨by decide,
    (stats_whole_collection asciiLowerCase [sampleMilk, sampleDog] "all" "zzz" "" "").2.1
      (by decide)⟩

/-! ## View deriver: what the sort keeps -/

/-- Inserting `a` does not disturb the elements of a class `P` whose members all compare as
equal: after filtering by `P` the inserted element still comes first. -/
theorem filter_orderedInsert_class {α : Type} (r : α → α → Prop) [DecidableRel r]
    (P : α → Bool) (hP : ∀ x y, P x = true → P y = true → r x y) (a : α) :
    ∀ l : List α, (l.orderedInsert r a).filter P = (a :: l).filter P
  | [] => rfl
  | b :: l => by
    by_cases hr : r a b
    · simp [List.orderedInsert, hr]
    · have ih := filter_orderedInsert_class r P hP a l
      have hab : ¬ (P a = true ∧ P b = true) := fun h => hr (hP a b h.1 h.2)
      simp only [List.orderedInsert, hr, if_false]
      rw [List.filter_cons, ih]
      by_cases ha : P a = true
      · have hb : ¬ P b = true := fun hb => hab ⟨ha, hb⟩
        simp [List.filter_cons, ha, hb]
      · simp [List.filter_cons, ha]

/-- Stability of the insertion sort: the elements of a class whose members all compare as equal
keep their order. -/
theorem filter_insertionSort_class {α : Type} (r : α → α → Prop) [DecidableRel r]
    (P : α → Bool) (hP : ∀ x y, P x = true → P y = true → r x y) :
    ∀ l : List α, (l.insertionSort r).filter P = l.filter P
  | [] => rfl
  | a :: l => by
    rw [List.insertionSort, filter_orderedInsert_class r P hP a, List.filter_cons,
      List.filter_cons, filter_insertionSort_class r P hP l]

/-- Two tasks with the same priority and the same `createdAt` compare as equal. -/
theorem sortCompare_same_key (p : String) (t : Int) (x y : Task)
    (hx : decide (x.priority = p ∧ x.createdAt = t) = true)
    (hy : decide (y.priority = p ∧ y.createdAt = t) = true) :
    sortCompare compareTodos x y ≤ 0 := by
  simp only [decide_eq_true_eq] at hx hy
  simp [sortCompare, compareTodos, hx.1, hx.2, hy.1, hy.2]

theorem sublist_filter_iff {α : Type} (P : α → Bool) (m l : List α)
    (hm : ∀ x ∈ m, P x = true) : m.Sublist l ↔ m.Sublist (l.filter P) := by
  constructor
  · intro h
    have := h.filter P
    rwa [List.filter_eq_self.2 hm] at this
  · intro h
    exact h.trans (List.filter_sublist l)

theorem sort_perm {α : Type} (cmp : α → α → Option Int) (l : List α) :
    (sort cmp l).Perm l :=
  List.perm_insertionSort _ l

/-! ## View deriver: the sort of the engine and the stable sort -/

theorem takeWhile_dropWhile_of_split {α : Type} (p : α → Bool) (l₁ l₂ : List α)
    (h₁ : ∀ x ∈ l₁, p x = true) (h₂ : ∀ x ∈ l₂, p x = false) :
    (l₁ ++ l₂).takeWhile p = l₁ ∧ (l₁ ++ l₂).dropWhile p = l₂ := by
  rw [List.takeWhile_append_of_pos h₁, List.dropWhile_append_of_pos h₁]
  cases l₂ with
  | nil => simp
  | cons a l =>
    have ha : p a = false := h₂ a (List.mem_cons_self _ _)
    simp [List.takeWhile_cons, List.dropWhile_cons, ha]

/-- The binary search stops at the border between the elements the pivot is not strictly
before and the elements it is strictly before, when the latter are closed to the right. -/
theorem binarySearch_spec {α : Type} (cmp : α → α → Option Int) (pivot : α) (work : List α)
    (hm : work.Pairwise
      (fun x y => sortCompare cmp pivot x < 0 → sortCompare cmp pivot y < 0)) :
    ∀ (fuel left right : Nat), left ≤ right → right ≤ work.length → right - left ≤ fuel →
      (∀ x ∈ work.take left, ¬ sortCompare cmp pivot x < 0) →
      (∀ x ∈ work.drop right, sortCompare cmp pivot x < 0) →
      (∀ x ∈ work.take (binarySearch cmp pivot work fuel left right),
        ¬ sortCompare cmp pivot x < 0) ∧
      (∀ x ∈ work.drop (binarySearch cmp pivot work fuel left right),
        sortCompare cmp pivot x < 0)
  | 0, left, right, hlr, _, hf, h1, h2 => by
    have e : left = right := by omega
    subst e
    exact ⟨h1, h2⟩
  | fuel + 1, left, right, hlr, hr, hf, h1, h2 => by
    rw [binarySearch]
    by_cases hlt : left < right
    · rw [if_pos hlt]
      have hmid : left + (right - left) / 2 < work.length := by omega
      have hsplit : work = work.take (left + (right - left) / 2) ++
          work[left + (right - left) / 2] :: work.drop (left + (right - left) / 2 + 1) := by
        rw [← List.drop_eq_getElem_cons hmid, List.take_append_drop]
      have hp := hm
      rw [hsplit, List.pairwise_append, List.pairwise_cons] at hp
      rw [List.getElem?_eq_getElem hmid]
      by_cases hx : sortCompare cmp pivot work[left + (right - left) / 2] < 0
      · simp only [hx, if_true]
        refine binarySearch_spec cmp pivot work hm fuel left _ (by omega) (by omega) (by omega)
          h1 ?_
        intro y hy
        rw [List.drop_eq_getElem_cons hmid] at hy
        rcases List.mem_cons.1 hy with e | e
        · rw [e]
          exact hx
        · exact hp.2.1.1 y e hx
      · simp only [hx, if_false]
        refine binarySearch_spec cmp pivot work hm fuel _ right (by omega) hr (by omega)
          ?_ h2
        intro y hy
        rw [List.take_succ, List.getElem?_eq_getElem hmid] at hy
        simp only [Option.toList_some, List.mem_append, List.mem_singleton] at hy
        rcases hy with e | e
        · intro hlty
          exact hx (hp.2.2 y e _ (List.mem_cons_self _ _) hlty)
        · rw [e]
          exact hx
    · have e : left = right := by omega
      subst e
      rw [if_neg hlt]
      exact ⟨h1, h2⟩


theorem binaryInsert_eq_insertAfter {α : Type} (cmp : α → α → Option Int)
    [IsTrans α (fun x y => sortCompare cmp x y ≤ 0)]
    (hanti : ∀ x y, sortCompare cmp x y < 0 ↔ ¬ sortCompare cmp y x ≤ 0)
    (work : List α) (pivot : α) (hs : work.Sorted (fun x y => sortCompare cmp x y ≤ 0)) :
    binaryInsert cmp work pivot = insertAfter (fun x y => sortCompare cmp x y ≤ 0) pivot work := by
  have hm : work.Pairwise
      (fun x y => sortCompare cmp pivot x < 0 → sortCompare cmp pivot y < 0) := by
    refine List.Pairwise.imp ?_ hs
    intro x y hxy hx
    rw [hanti] at hx ⊢
    intro hy
    exact hx (IsTrans.trans (r := fun x y => sortCompare cmp x y ≤ 0) x y pivot hxy hy)
  obtain ⟨h1, h2⟩ := binarySearch_spec cmp pivot work hm work.length 0 work.length
    (Nat.zero_le _) (Nat.le_refl _) (by omega) (by simp) (by simp)
  have hsplit := takeWhile_dropWhile_of_split (fun x => decide (sortCompare cmp x pivot ≤ 0))
    (work.take (binarySearch cmp pivot work work.length 0 work.length))
    (work.drop (binarySearch cmp pivot work work.length 0 work.length))
    (fun x hx => by
      have := h1 x hx
      rw [hanti] at this
      simpa using this)
    (fun x hx => by
      have := h2 x hx
      rw [hanti] at this
      simpa using this)
  rw [List.take_append_drop] at hsplit
  unfold binaryInsert insertAfter
  rw [hsplit.1, hsplit.2]

theorem orderedInsert_insertAfter {α : Type} (r : α → α → Prop) [DecidableRel r]
    [IsTotal α r] [IsTrans α r] (a b : α) :
    ∀ s : List α, (insertAfter r a s).orderedInsert r b = insertAfter r a (s.orderedInsert r b)
  | [] => by
    by_cases h : r b a <;> simp [insertAfter, List.orderedInsert, h]
  | x :: s => by
    have ih := orderedInsert_insertAfter r a b s
    unfold insertAfter at ih ⊢
    by_cases hbx : r b x
    · by_cases hxa : r x a
      · have hba : r b a := IsTrans.trans b x a hbx hxa
        simp [List.orderedInsert, List.takeWhile_cons, List.dropWhile_cons, hbx, hxa, hba]
      · by_cases hba : r b a
        · simp [List.orderedInsert, List.takeWhile_cons, List.dropWhile_cons, hbx, hxa, hba]
        · simp [List.orderedInsert, List.takeWhile_cons, List.dropWhile_cons, hbx, hxa, hba]
    · by_cases hxa : r x a
      · simp only [List.orderedInsert, List.takeWhile_cons, List.dropWhile_cons, hbx, hxa,
          decide_True, if_true, if_false, List.cons_append]
        rw [ih]
      · have hax : r a x := (IsTotal.total a x).resolve_right hxa
        have hba : ¬ r b a := fun h => hbx (IsTrans.trans b a x h hax)
        simp [List.orderedInsert, List.takeWhile_cons, List.dropWhile_cons, hbx, hxa, hba]

theorem insertionSort_concat {α : Type} (r : α → α → Prop) [DecidableRel r]
    [IsTotal α r] [IsTrans α r] (a : α) :
    ∀ p : List α, (p ++ [a]).insertionSort r = insertAfter r a (p.insertionSort r)
  | [] => by simp [insertAfter]
  | b :: p => by
    rw [List.cons_append, List.insertionSort, insertionSort_concat r a p,
      orderedInsert_insertAfter, List.insertionSort]


theorem foldl_binaryInsert {α : Type} (cmp : α → α → Option Int)
    [IsTotal α (fun x y => sortCompare cmp x y ≤ 0)]
    [IsTrans α (fun x y => sortCompare cmp x y ≤ 0)]
    (hanti : ∀ x y, sortCompare cmp x y < 0 ↔ ¬ sortCompare cmp y x ≤ 0) :
    ∀ q p : List α,
      q.foldl (binaryInsert cmp) (p.insertionSort (fun x y => sortCompare cmp x y ≤ 0)) =
        (p ++ q).insertionSort (fun x y => sortCompare cmp x y ≤ 0)
  | [], p => by simp
  | a :: q, p => by
    rw [List.foldl_cons, binaryInsert_eq_insertAfter cmp hanti _ a
      (List.sorted_insertionSort _ p), ← insertionSort_concat, foldl_binaryInsert cmp hanti q,
      List.append_assoc, List.singleton_append]

theorem extendRun_append {α : Type} (cmp : α → α → Option Int) (d : Bool) :
    ∀ (tl : List α) (prev : α),
      (extendRun cmp d prev tl).1 ++ (extendRun cmp d prev tl).2 = tl
  | [], _ => rfl
  | cur :: tl, prev => by
    have ih := extendRun_append cmp d tl cur
    rw [extendRun]
    by_cases hb : (if d then decide (0 ≤ sortCompare cmp cur prev)
        else decide (sortCompare cmp cur prev < 0)) = true
    · rw [if_pos hb]
      rfl
    · rw [if_neg hb]
      simp [ih]

theorem extendRun_chain_ascending {α : Type} (cmp : α → α → Option Int) :
    ∀ (tl : List α) (prev : α),
      List.Chain (fun x y => ¬ sortCompare cmp y x < 0) prev (extendRun cmp false prev tl).1
  | [], _ => List.Chain.nil
  | cur :: tl, prev => by
    rw [extendRun]
    by_cases h : sortCompare cmp cur prev < 0
    · simp [h]
    · simp only [h, Bool.false_eq_true, if_false, decide_False]
      exact List.Chain.cons h (extendRun_chain_ascending cmp tl cur)

theorem extendRun_chain_descending {α : Type} (cmp : α → α → Option Int) :
    ∀ (tl : List α) (prev : α),
      List.Chain (fun x y => sortCompare cmp y x < 0) prev (extendRun cmp true prev tl).1
  | [], _ => List.Chain.nil
  | cur :: tl, prev => by
    rw [extendRun]
    by_cases h : 0 ≤ sortCompare cmp cur prev
    · simp [h]
    · simp only [h, if_true, if_false, decide_False, Bool.false_eq_true]
      exact List.Chain.cons (by omega) (extendRun_chain_descending cmp tl cur)

theorem orderedInsert_of_all_gt {α : Type} (r : α → α → Prop) [DecidableRel r] (a : α) :
    ∀ s : List α, (∀ x ∈ s, ¬ r a x) → s.orderedInsert r a = s ++ [a]
  | [], _ => rfl
  | x :: s, h => by
    have hx : ¬ r a x := h x (List.mem_cons_self _ _)
    simp [List.orderedInsert, hx,
      orderedInsert_of_all_gt r a s (fun y hy => h y (List.mem_cons_of_mem _ hy))]

theorem insertionSort_of_descending {α : Type} (r : α → α → Prop) [DecidableRel r] :
    ∀ p : List α, p.Pairwise (fun x y => ¬ r x y) → p.insertionSort r = p.reverse
  | [], _ => rfl
  | a :: p, h => by
    rw [List.pairwise_cons] at h
    rw [List.insertionSort, insertionSort_of_descending r p h.2, List.reverse_cons]
    exact orderedInsert_of_all_gt r a _ (fun x hx => h.1 x (List.mem_reverse.1 hx))


/-- The first run is the stable sort of the elements it covers, for a consistent comparator. -/
theorem countAndMakeRun_spec {α : Type} (cmp : α → α → Option Int)
    [IsTotal α (fun x y => sortCompare cmp x y ≤ 0)]
    [IsTrans α (fun x y => sortCompare cmp x y ≤ 0)]
    (hanti : ∀ x y, sortCompare cmp x y < 0 ↔ ¬ sortCompare cmp y x ≤ 0) :
    ∀ l : List α, ∃ p : List α, p ++ (countAndMakeRun cmp l).2 = l ∧
      (countAndMakeRun cmp l).1 = p.insertionSort (fun x y => sortCompare cmp x y ≤ 0)
  | [] => ⟨[], rfl, rfl⟩
  | [a] => ⟨[a], rfl, rfl⟩
  | a :: b :: tl => by
    by_cases h : sortCompare cmp b a < 0
    · refine ⟨a :: b :: (extendRun cmp true b tl).1, ?_, ?_⟩
      · simp [countAndMakeRun, h, extendRun_append]
      · have hc : List.Chain (fun x y => ¬ sortCompare cmp x y ≤ 0) a
            (b :: (extendRun cmp true b tl).1) := by
          refine List.Chain.imp (fun x y hxy => (hanti y x).1 hxy) ?_
          exact List.Chain.cons h (extendRun_chain_descending cmp tl b)
        haveI : IsTrans α (fun x y => ¬ sortCompare cmp x y ≤ 0) := ⟨by
          intro x y z hxy hyz hxz
          rcases IsTotal.total (r := fun x y => sortCompare cmp x y ≤ 0) y x with e | e
          · exact hyz (IsTrans.trans (r := fun x y => sortCompare cmp x y ≤ 0) y x z e hxz)
          · exact hxy e⟩
        have hp := List.chain_iff_pairwise.1 hc
        rw [insertionSort_of_descending _ _ hp]
        simp [countAndMakeRun, h]
    · refine ⟨a :: b :: (extendRun cmp false b tl).1, ?_, ?_⟩
      · simp [countAndMakeRun, h, extendRun_append]
      · have hc : List.Chain (fun x y => sortCompare cmp x y ≤ 0) a
            (b :: (extendRun cmp false b tl).1) := by
          have hc0 : List.Chain (fun x y => ¬ sortCompare cmp y x < 0) a
              (b :: (extendRun cmp false b tl).1) :=
            List.Chain.cons h (extendRun_chain_ascending cmp tl b)
          exact List.Chain.imp
            (fun x y hxy => not_not.1 (fun hn => hxy ((hanti y x).2 hn))) hc0
        have hp : (a :: b :: (extendRun cmp false b tl).1).Sorted
            (fun x y => sortCompare cmp x y ≤ 0) := List.chain_iff_pairwise.1 hc
        rw [hp.insertionSort_eq]
        simp [countAndMakeRun, h]

/-- For a consistent comparator the sort of the engine returns the stable sort. -/
theorem v8Sort_eq_insertionSort {α : Type} (cmp : α → α → Option Int)
    [IsTotal α (fun x y => sortCompare cmp x y ≤ 0)]
    [IsTrans α (fun x y => sortCompare cmp x y ≤ 0)]
    (hanti : ∀ x y, sortCompare cmp x y < 0 ↔ ¬ sortCompare cmp y x ≤ 0)
    (l : List α) (hl : l.length < 64) :
    v8Sort cmp l = some (sort cmp l) := by
  obtain ⟨p, hp, hrun⟩ := countAndMakeRun_spec cmp hanti l
  unfold v8Sort sort
  rw [if_pos hl, hrun, foldl_binaryInsert cmp hanti, hp]


/-! ### The engine's sort depends on the comparator only through the elements of the list -/

theorem extendRun_congr {α : Type} (cmp cmp2 : α → α → Option Int) (d : Bool) :
    ∀ (tl : List α) (prev : α),
      (∀ x ∈ prev :: tl, ∀ y ∈ prev :: tl, sortCompare cmp x y = sortCompare cmp2 x y) →
      extendRun cmp d prev tl = extendRun cmp2 d prev tl
  | [], _, _ => rfl
  | cur :: tl, prev, h => by
    have e : sortCompare cmp cur prev = sortCompare cmp2 cur prev :=
      h cur (by simp) prev (by simp)
    have ih := extendRun_congr cmp cmp2 d tl cur
      (fun x hx y hy => h x (List.mem_cons_of_mem _ hx) y (List.mem_cons_of_mem _ hy))
    rw [extendRun, extendRun, e, ih]

theorem countAndMakeRun_congr {α : Type} (cmp cmp2 : α → α → Option Int) :
    ∀ l : List α, (∀ x ∈ l, ∀ y ∈ l, sortCompare cmp x y = sortCompare cmp2 x y) →
      countAndMakeRun cmp l = countAndMakeRun cmp2 l
  | [], _ => rfl
  | [_], _ => rfl
  | a :: b :: tl, h => by
    have e : sortCompare cmp b a = sortCompare cmp2 b a := h b (by simp) a (by simp)
    have ih : ∀ d, extendRun cmp d b tl = extendRun cmp2 d b tl := fun d =>
      extendRun_congr cmp cmp2 d tl b
        (fun x hx y hy => h x (List.mem_cons_of_mem _ hx) y (List.mem_cons_of_mem _ hy))
    rw [countAndMakeRun, countAndMakeRun, e, ih true, ih false]

theorem countAndMakeRun_mem {α : Type} (cmp : α → α → Option Int) (l : List α) (x : α) :
    x ∈ (countAndMakeRun cmp l).1 ++ (countAndMakeRun cmp l).2 ↔ x ∈ l := by
  match l with
  | [] => simp [countAndMakeRun]
  | [a] => simp [countAndMakeRun]
  | a :: b :: tl =>
    by_cases h : sortCompare cmp b a < 0
    · have e : x ∈ tl ↔ x ∈ (extendRun cmp true b tl).1 ∨ x ∈ (extendRun cmp true b tl).2 := by
        rw [← List.mem_append, extendRun_append]
      simp only [countAndMakeRun, h, if_true, List.mem_append, List.mem_reverse, List.mem_cons, e]
      tauto
    · have e : x ∈ tl ↔ x ∈ (extendRun cmp false b tl).1 ∨ x ∈ (extendRun cmp false b tl).2 := by
        rw [← List.mem_append, extendRun_append]
      simp only [countAndMakeRun, h, if_false, List.mem_append, List.mem_cons, e]
      tauto

theorem binarySearch_congr {α : Type} (cmp cmp2 : α → α → Option Int) (pivot : α)
    (work : List α) (h : ∀ x ∈ work, sortCompare cmp pivot x = sortCompare cmp2 pivot x) :
    ∀ fuel left right : Nat,
      binarySearch cmp pivot work fuel left right = binarySearch cmp2 pivot work fuel left right
  | 0, _, _ => rfl
  | fuel + 1, left, right => by
    rw [binarySearch, binarySearch]
    by_cases hlt : left < right
    · rw [if_pos hlt, if_pos hlt]
      cases hx : work[left + (right - left) / 2]? with
      | none => rfl
      | some x =>
        have hmem : x ∈ work := List.mem_iff_getElem?.2 ⟨_, hx⟩
        simp only [h x hmem, binarySearch_congr cmp cmp2 pivot work h fuel]
    · rw [if_neg hlt, if_neg hlt]

theorem binaryInsert_congr {α : Type} (cmp cmp2 : α → α → Option Int) (pivot : α)
    (work : List α) (h : ∀ x ∈ work, sortCompare cmp pivot x = sortCompare cmp2 pivot x) :
    binaryInsert cmp work pivot = binaryInsert cmp2 work pivot := by
  unfold binaryInsert
  rw [binarySearch_congr cmp cmp2 pivot work h]

theorem mem_binaryInsert {α : Type} (cmp : α → α → Option Int) (work : List α) (pivot x : α) :
    x ∈ binaryInsert cmp work pivot ↔ x = pivot ∨ x ∈ work := by
  unfold binaryInsert
  have e := List.take_append_drop (binarySearch cmp pivot work work.length 0 work.length) work
  constructor
  · intro h
    rcases List.mem_append.1 h with h | h
    · exact Or.inr (List.mem_of_mem_take h)
    · rcases List.mem_cons.1 h with h | h
      · exact Or.inl h
      · exact Or.inr (List.mem_of_mem_drop h)
  · intro h
    rcases h with h | h
    · exact List.mem_append.2 (Or.inr (List.mem_cons.2 (Or.inl h)))
    · rw [← e] at h
      rcases List.mem_append.1 h with h | h
      · exact List.mem_append.2 (Or.inl h)
      · exact List.mem_append.2 (Or.inr (List.mem_cons_of_mem _ h))

theorem foldl_binaryInsert_congr {α : Type} (cmp cmp2 : α → α → Option Int) :
    ∀ rest work : List α,
      (∀ x ∈ work ++ rest, ∀ y ∈ work ++ rest, sortCompare cmp x y = sortCompare cmp2 x y) →
      rest.foldl (binaryInsert cmp) work = rest.foldl (binaryInsert cmp2) work
  | [], _, _ => rfl
  | a :: rest, work, h => by
    have e : binaryInsert cmp work a = binaryInsert cmp2 work a :=
      binaryInsert_congr cmp cmp2 a work
        (fun x hx => h a (by simp) x (List.mem_append.2 (Or.inl hx)))
    rw [List.foldl_cons, List.foldl_cons, e]
    apply foldl_binaryInsert_congr cmp cmp2 rest
    have hsub : ∀ x ∈ binaryInsert cmp2 work a ++ rest, x ∈ work ++ a :: rest := by
      intro x hx
      rcases List.mem_append.1 hx with hx | hx
      · rcases (mem_binaryInsert cmp2 work a x).1 hx with hx | hx
        · rw [hx]
          simp
        · exact List.mem_append.2 (Or.inl hx)
      · exact List.mem_append.2 (Or.inr (List.mem_cons_of_mem _ hx))
    exact fun x hx y hy => h x (hsub x hx) y (hsub y hy)

theorem v8Sort_congr {α : Type} (cmp cmp2 : α → α → Option Int) (l : List α)
    (h : ∀ x ∈ l, ∀ y ∈ l, sortCompare cmp x y = sortCompare cmp2 x y) :
    v8Sort cmp l = v8Sort cmp2 l := by
  unfold v8Sort
  rw [← countAndMakeRun_congr cmp cmp2 l h]
  rw [foldl_binaryInsert_congr cmp cmp2 _ _
    (fun x hx y hy => h x ((countAndMakeRun_mem cmp l x).1 hx)
      y ((countAndMakeRun_mem cmp l y).1 hy))]


theorem sortCompare_compareListed (a b : Task) :
    sortCompare compareListed a b =
      if rankNat a.priority ≠ rankNat b.priority then
        (rankNat a.priority : Int) - (rankNat b.priority : Int)
      else b.createdAt - a.createdAt := by
  unfold sortCompare compareListed
  split <;> rfl

theorem compareListed_anti (x y : Task) :
    sortCompare compareListed x y < 0 ↔ ¬ sortCompare compareListed y x ≤ 0 := by
  simp only [sortCompare_compareListed]
  split_ifs <;> omega

theorem sortCompare_eq_listed {a b : Task} (ha : a.priority ∈ priorities)
    (hb : b.priority ∈ priorities) :
    sortCompare compareTodos a b = sortCompare compareListed a b := by
  have ea := rank_of_priority ha
  have eb := rank_of_priority hb
  rw [sortCompare_compareListed]
  unfold sortCompare compareTodos
  rw [ea, eb]
  by_cases h : rankNat a.priority = rankNat b.priority
  · simp [h]
  · have h2 : RankValue.num (rankNat a.priority) ≠ RankValue.num (rankNat b.priority) :=
      fun e => h (RankValue.num.inj e)
    simp [h, h2, RankValue.sub]

/-- On fewer than 64 tasks with listed priorities the sort of the engine returns what the
stable sort of the model returns. -/
theorem v8Sort_compareTodos (l : List Task) (h : ∀ t ∈ l, t.priority ∈ priorities)
    (hl : l.length < 64) : v8Sort compareTodos l = some (sort compareTodos l) := by
  have hc : ∀ x ∈ l, ∀ y ∈ l, sortCompare compareTodos x y = sortCompare compareListed x y :=
    fun x hx y hy => sortCompare_eq_listed (h x hx) (h y hy)
  haveI : IsTotal Task (fun x y => sortCompare compareListed x y ≤ 0) := ⟨fun a b => by
    simp only [sortCompare_compareListed]
    split_ifs <;> omega⟩
  haveI : IsTrans Task (fun x y => sortCompare compareListed x y ≤ 0) := ⟨fun a b c => by
    simp only [sortCompare_compareListed]
    split_ifs <;> omega⟩
  rw [v8Sort_congr compareTodos compareListed l hc,
    v8Sort_eq_insertionSort compareListed compareListed_anti l hl]
  congr 1
  unfold sort
  exact (insertionSort_congr _ _ l (fun a ha b hb => by rw [hc a ha b hb])).symm

/-- With listed priorities and fewer than 64 tasks to show, the view computed with the sort of
the engine is the view of the model. -/
theorem visibleTodosV8_eq (L : LowerCase) (C : List Task) (filter search : String)
    (h : ∀ t ∈ C, t.priority ∈ priorities)
    (hl : ((C.filter (matchesFilter filter)).filter (matchesSearch L search)).length < 64) :
    visibleTodosV8 L C filter search = some (visibleTodos L C filter search) :=
  v8Sort_compareTodos _
    (fun t ht => h t (List.mem_filter.1 (List.mem_filter.1 ht).1).1) hl

/-! ## View deriver: stability -/

/-- A stable sort keeps each class of tasks with one priority and one creation time in the
order of its input. -/
theorem filter_visibleTodos_class (L : LowerCase) (C : List Task) (filter search : String)
    (p : String) (t : Int) :
    (visibleTodos L C filter search).filter
        (fun x => decide (x.priority = p ∧ x.createdAt = t)) =
      ((C.filter (matchesFilter filter)).filter (matchesSearch L search)).filter
        (fun x => decide (x.priority = p ∧ x.createdAt = t)) := by
  unfold visibleTodos sort
  exact filter_insertionSort_class _ _ (sortCompare_same_key p t) _

/-- C14, as stated, fails on a collection with a priority outside the rank table.  On
`sampleUnlisted` with mode `all` and empty search the sort of the engine yields the ids
1, 2, 4, 7, 3, 5, 6: tasks 6 and 7 are both `high` with the same `createdAt`, task 6 stands
before task 7 in the collection, and task 7 stands before task 6 in the visible sequence. -/
theorem engine_sort_not_stable :
    visibleTodosV8 asciiLowerCase sampleUnlisted "all" "" =
      some [⟨"1", "a", "high", false, 0⟩, ⟨"2", "b", "high", false, 0⟩,
        ⟨"4", "d", "high", false, 0⟩, ⟨"7", "g", "high", false, 0⟩, ⟨"3", "c", "low", false, 0⟩,
        ⟨"5", "e", "urgent", false, 0⟩, ⟨"6", "f", "high", false, 0⟩] ∧
    (⟨"6", "f", "high", false, 0⟩ : Task).priority = (⟨"7", "g", "high", false, 0⟩ : Task).priority ∧
    (⟨"6", "f", "high", false, 0⟩ : Task).createdAt =
      (⟨"7", "g", "high", false, 0⟩ : Task).createdAt ∧
    [(⟨"6", "f", "high", false, 0⟩ : Task), ⟨"7", "g", "high", false, 0⟩].Sublist sampleUnlisted ∧
    ¬ [(⟨"6", "f", "high", false, 0⟩ : Task), ⟨"7", "g", "high", false, 0⟩].Sublist
      [⟨"1", "a", "high", false, 0⟩, ⟨"2", "b", "high", false, 0⟩,
        ⟨"4", "d", "high", false, 0⟩, ⟨"7", "g", "high", false, 0⟩, ⟨"3", "c", "low", false, 0⟩,
        ⟨"5", "e", "urgent", false, 0⟩, ⟨"6", "f", "high", false, 0⟩] := by
  refine ⟨by decide, rfl, rfl, by decide, by decide⟩

/-- C14, amended: the sort is stable when every priority is one of `high`, `medium`, `low`.
For every priority `p` and creation time `t`, the visible tasks with that priority and that
time are then, in order, the tasks of the collection with that priority and that time that
pass the two filters; so two visible tasks `a`, `b` with the same priority and the same
`createdAt` stand in the visible sequence in the order they have in the collection.  With
fewer than 64 tasks to show, the sort of the engine returns this same sequence. -/
theorem sort_stable (L : LowerCase) (C : List Task) (filter search : String) (a b : Task)
    (h : ∀ x ∈ C, x.priority ∈ ["high", "medium", "low"]) :
    (∀ (p : String) (t : Int),
      (visibleTodos L C filter search).filter
          (fun x => decide (x.priority = p ∧ x.createdAt = t)) =
        ((C.filter (matchesFilter filter)).filter (matchesSearch L search)).filter
          (fun x => decide (x.priority = p ∧ x.createdAt = t))) ∧
    (a.priority = b.priority → a.createdAt = b.createdAt →
      ([a, b].Sublist (visibleTodos L C filter search) ↔
        [a, b].Sublist ((C.filter (matchesFilter filter)).filter (matchesSearch L search))) ∧
      ([a, b].Sublist (visibleTodos L C filter search) → [a, b].Sublist C)) ∧
    (((C.filter (matchesFilter filter)).filter (matchesSearch L search)).length < 64 →
      visibleTodosV8 L C filter search = some (visibleTodos L C filter search)) := by
  have key := filter_visibleTodos_class L C filter search
  refine ⟨key, ?_, visibleTodosV8_eq L C filter search h⟩
  intro hp hc
  have hm : ∀ x ∈ [a, b],
      (fun x : Task => decide (x.priority = b.priority ∧ x.createdAt = b.createdAt)) x = true := by
    intro x hx
    rcases List.mem_cons.1 hx with e | e
    · subst e
      simp [hp, hc]
    · have e' : x = b := by simpa using e
      subst e'
      simp
  have hiff : [a, b].Sublist (visibleTodos L C filter search) ↔
      [a, b].Sublist ((C.filter (matchesFilter filter)).filter (matchesSearch L search)) := by
    have h1 := sublist_filter_iff _ [a, b] (visibleTodos L C filter search) hm
    have h2 := sublist_filter_iff _ [a, b]
      ((C.filter (matchesFilter filter)).filter (matchesSearch L search)) hm
    rw [key] at h1
    exact h1.trans h2.symm
  refine ⟨hiff, fun h => ?_⟩
  exact ((hiff.1 h).trans (List.filter_sublist _)).trans (List.filter_sublist _)

/-- Instance of C14, amended: two medium tasks created at the same time keep their order behind
a high one. -/
theorem sort_stable_witness :
    (∀ x ∈ [sampleMilk, ⟨"4", "tea", "medium", true, 1000⟩, sampleDog],
      x.priority ∈ ["high", "medium", "low"]) ∧
    sampleMilk.priority = (⟨"4", "tea", "medium", true, 1000⟩ : Task).priority ∧
    sampleMilk.createdAt = (⟨"4", "tea", "medium", true, 1000⟩ : Task).createdAt ∧
    [sampleMilk, ⟨"4", "tea", "medium", true, 1000⟩].Sublist
      (visibleTodos asciiLowerCase [sampleMilk, ⟨"4", "tea", "medium", true, 1000⟩, sampleDog]
        "all" "") ∧
    [sampleMilk, ⟨"4", "tea", "medium", true, 1000⟩].Sublist
      [sampleMilk, ⟨"4", "tea", "medium", true, 1000⟩, sampleDog] :=
  ⟨by decide, rfl, rfl, by decide,
    ((sort_stable asciiLowerCase [sampleMilk, ⟨"4", "tea", "medium", true, 1000⟩, sampleDog]
      "all" "" sampleMilk ⟨"4", "tea", "medium", true, 1000⟩ (by decide)).2.1 rfl rfl).2
      (by decide)⟩

/-- C20: when every priority is one of `high`, `medium`, `low`, the visible sequence is a
permutation of the tasks that pass the completion filter and the search filter: a task is
visible as often as it occurs in the collection if it passes both filters and not at all
otherwise, and the visible sequence is never longer than the collection. -/
theorem visible_permutation (L : LowerCase) (C : List Task) (filter search : String) (t : Task)
    (_h : ∀ x ∈ C, x.priority ∈ ["high", "medium", "low"]) :
    (visibleTodos L C filter search).Perm
      ((C.filter (matchesFilter filter)).filter (matchesSearch L search)) ∧
    (visibleTodos L C filter search).count t =
      (if matchesFilter filter t = true ∧ matchesSearch L search t = true then C.count t
       else 0) ∧
    (visibleTodos L C filter search).length ≤ C.length := by
  have hperm : (visibleTodos L C filter search).Perm
      ((C.filter (matchesFilter filter)).filter (matchesSearch L search)) := sort_perm _ _
  refine ⟨hperm, ?_, ?_⟩
  · rw [hperm.count_eq]
    by_cases hf : matchesFilter filter t = true
    · by_cases hs : matchesSearch L search t = true
      · rw [if_pos ⟨hf, hs⟩, List.count_filter hs, List.count_filter hf]
      · rw [if_neg (fun h => hs h.2)]
        exact List.count_eq_zero_of_not_mem (fun hm => hs (List.mem_filter.1 hm).2)
    · rw [if_neg (fun h => hf h.1)]
      exact List.count_eq_zero_of_not_mem
        (fun hm => hf (List.mem_filter.1 (List.mem_filter.1 hm).1).2)
  · rw [hperm.length_eq]
    exact (List.length_filter_le _ _).trans (List.length_filter_le _ _)

/-- Instance of C20 on the three sample tasks with mode `active`. -/
theorem visible_permutation_witness :
    (∀ x ∈ [sampleMilk, sampleDog, sampleMail], x.priority ∈ ["high", "medium", "low"]) ∧
    (visibleTodos asciiLowerCase [sampleMilk, sampleDog, sampleMail] "active" "").Perm
      (([sampleMilk, sampleDog, sampleMail].filter (matchesFilter "active")).filter
        (matchesSearch asciiLowerCase "")) ∧
    (visibleTodos asciiLowerCase [sampleMilk, sampleDog, sampleMail] "active" "").count sampleDog =
      (if matchesFilter "active" sampleDog = true ∧
          matchesSearch asciiLowerCase "" sampleDog = true
        then [sampleMilk, sampleDog, sampleMail].count sampleDog else 0) ∧
    (visibleTodos asciiLowerCase [sampleMilk, sampleDog, sampleMail] "active" "").length ≤
      [sampleMilk, sampleDog, sampleMail].length :=
  ⟨by decide,
    visible_permutation asciiLowerCase [sampleMilk, sampleDog, sampleMail] "active" "" sampleDog
      (by decide)⟩

/-! ## View deriver: the order of the stages -/

/-- The two filters can be swapped: the result is the same for every input. -/
theorem visibleSearchFirst_eq (L : LowerCase) (C : List Task) (filter search : String) :
    visibleSearchFirst L C filter search = visibleTodos L C filter search := by
  unfold visibleSearchFirst visibleTodos
  rw [List.filter_filter, List.filter_filter]
  congr 2
  funext x
  exact Bool.and_comm _ _

theorem filter_orderedInsert_neg {α : Type} (r : α → α → Prop) [DecidableRel r]
    (P : α → Bool) (a : α) (ha : ¬ P a = true) (l : List α) :
    (l.orderedInsert r a).filter P = l.filter P := by
  rw [List.orderedInsert_eq_take_drop, List.filter_append, List.filter_cons, if_neg ha,
    ← List.filter_append, List.takeWhile_append_dropWhile]

/-- Inserting into a sorted list commutes with filtering, when the inserted element passes the
filter and the relation is transitive. -/
theorem filter_orderedInsert_sorted {α : Type} (r : α → α → Prop) [DecidableRel r]
    [IsTrans α r] (P : α → Bool) (a : α) (ha : P a = true) :
    ∀ l : List α, l.Sorted r → (l.orderedInsert r a).filter P = (l.filter P).orderedInsert r a
  | [], _ => by simp [ha]
  | b :: l, hs => by
    have hs' : l.Sorted r := hs.of_cons
    have hb : ∀ x ∈ l, r b x := fun x hx => List.rel_of_sorted_cons hs x hx
    by_cases hr : r a b
    · by_cases hPb : P b = true
      · simp [List.orderedInsert, hr, List.filter_cons, ha, hPb]
      · have hlt : ∀ x ∈ l.filter P, r a x :=
          fun x hx => IsTrans.trans a b x hr (hb x (List.mem_filter.1 hx).1)
        have e : (l.filter P).orderedInsert r a = a :: l.filter P := by
          cases hl : l.filter P with
          | nil => rfl
          | cons c m =>
            have : r a c := hlt c (by rw [hl]; exact List.mem_cons_self _ _)
            simp [List.orderedInsert, this]
        simp [List.orderedInsert, hr, List.filter_cons, ha, hPb, e]
    · have ih := filter_orderedInsert_sorted r P a ha l hs'
      by_cases hPb : P b = true
      · simp [List.orderedInsert, hr, List.filter_cons, hPb, ih]
      · simp [List.orderedInsert, hr, List.filter_cons, hPb, ih]

/-- A stable sort by a total preorder commutes with filtering. -/
theorem filter_insertionSort {α : Type} (r : α → α → Prop) [DecidableRel r]
    [IsTrans α r] [IsTotal α r] (P : α → Bool) :
    ∀ l : List α, (l.insertionSort r).filter P = (l.filter P).insertionSort r
  | [] => rfl
  | a :: l => by
    have ih := filter_insertionSort r P l
    by_cases ha : P a = true
    · rw [List.insertionSort, filter_orderedInsert_sorted r P a ha _
        (List.sorted_insertionSort r l), ih, List.filter_cons, if_pos ha, List.insertionSort]
    · rw [List.insertionSort, filter_orderedInsert_neg r P a ha, ih, List.filter_cons,
        if_neg ha]

theorem sort_compareTodos_eq (l : List Task) (h : ∀ t ∈ l, t.priority ∈ priorities) :
    sort compareTodos l = l.insertionSort ranksBefore :=
  insertionSort_congr _ _ l (fun a ha b hb => sortCompare_iff_ranksBefore (h a ha) (h b hb))

/-- With listed priorities the sort can be moved in front of the filters: the result is the
same. -/
theorem visibleSortFirst_eq_of_listed (L : LowerCase) (C : List Task) (filter search : String)
    (h : ∀ t ∈ C, t.priority ∈ priorities) :
    visibleSortFirst L C filter search = visibleTodos L C filter search := by
  have hf : ∀ t ∈ (C.filter (matchesFilter filter)).filter (matchesSearch L search),
      t.priority ∈ priorities :=
    fun t ht => h t (List.mem_filter.1 (List.mem_filter.1 ht).1).1
  unfold visibleSortFirst visibleTodos
  rw [sort_compareTodos_eq C h, sort_compareTodos_eq _ hf, filter_insertionSort,
    filter_insertionSort]

/-- C19: the order of the stages can change the result.  For the collection of a `low` task, a
completed task whose priority `urgent` is not in the rank table (the comparator returns `NaN`
against it) and a `high` task, with mode `active` and empty search, sorting before filtering
shows low, high while the order of the source shows high, low; so for some collection, mode
and search text another order of the stages gives a different visible sequence. -/
theorem stage_order_matters (L : LowerCase) :
    (visibleSortFirst L [⟨"1", "x", "low", false, 0⟩, ⟨"2", "y", "urgent", true, 0⟩,
        ⟨"3", "z", "high", false, 0⟩] "active" "" =
      [⟨"1", "x", "low", false, 0⟩, ⟨"3", "z", "high", false, 0⟩] ∧
     visibleTodos L [⟨"1", "x", "low", false, 0⟩, ⟨"2", "y", "urgent", true, 0⟩,
        ⟨"3", "z", "high", false, 0⟩] "active" "" =
      [⟨"3", "z", "high", false, 0⟩, ⟨"1", "x", "low", false, 0⟩]) ∧
    ∃ (C : List Task) (filter search : String),
      visibleSearchFirst L C filter search ≠ visibleTodos L C filter search ∨
      visibleSortFirst L C filter search ≠ visibleTodos L C filter search := by
  have hs : ∀ todo, matchesSearch L "" todo = true := matchesSearch_blank L "" (by decide)
  have hsf : ∀ l : List Task, l.filter (matchesSearch L "") = l :=
    fun l => List.filter_eq_self.2 (fun a _ => hs a)
  have ef : [(⟨"1", "x", "low", false, 0⟩ : Task), ⟨"2", "y", "urgent", true, 0⟩,
      ⟨"3", "z", "high", false, 0⟩].filter (matchesFilter "active") =
      [⟨"1", "x", "low", false, 0⟩, ⟨"3", "z", "high", false, 0⟩] := by decide
  have e1 : visibleSortFirst L [⟨"1", "x", "low", false, 0⟩, ⟨"2", "y", "urgent", true, 0⟩,
      ⟨"3", "z", "high", false, 0⟩] "active" "" =
      [⟨"1", "x", "low", false, 0⟩, ⟨"3", "z", "high", false, 0⟩] := by
    have e : sort compareTodos [(⟨"1", "x", "low", false, 0⟩ : Task),
        ⟨"2", "y", "urgent", true, 0⟩, ⟨"3", "z", "high", false, 0⟩] =
        [⟨"1", "x", "low", false, 0⟩, ⟨"2", "y", "urgent", true, 0⟩,
          ⟨"3", "z", "high", false, 0⟩] := by decide
    unfold visibleSortFirst
    rw [hsf, e, ef]
  have e2 : visibleTodos L [⟨"1", "x", "low", false, 0⟩, ⟨"2", "y", "urgent", true, 0⟩,
      ⟨"3", "z", "high", false, 0⟩] "active" "" =
      [⟨"3", "z", "high", false, 0⟩, ⟨"1", "x", "low", false, 0⟩] := by
    have e : sort compareTodos [(⟨"1", "x", "low", false, 0⟩ : Task),
        ⟨"3", "z", "high", false, 0⟩] =
        [⟨"3", "z", "high", false, 0⟩, ⟨"1", "x", "low", false, 0⟩] := by decide
    unfold visibleTodos
    rw [hsf, ef, e]
  refine ⟨⟨e1, e2⟩, [⟨"1", "x", "low", false, 0⟩, ⟨"2", "y", "urgent", true, 0⟩,
    ⟨"3", "z", "high", false, 0⟩], "active", "", Or.inr ?_⟩
  rw [e1, e2]
  decide

/-- On the three tasks low, urgent, high the sort of the engine returns the order the stable
sort of the model returns: the tasks as they stand. -/
theorem v8Sort_low_urgent_high :
    v8Sort compareTodos [(⟨"1", "x", "low", false, 0⟩ : Task), ⟨"2", "y", "urgent", true, 0⟩,
        ⟨"3", "z", "high", false, 0⟩] =
      some (sort compareTodos [(⟨"1", "x", "low", false, 0⟩ : Task),
        ⟨"2", "y", "urgent", true, 0⟩, ⟨"3", "z", "high", false, 0⟩]) := by
  decide

/-! ## Invariants of the collection -/

theorem trim_data (s : String) :
    (trim s).data = (s.data.dropWhile isWhiteSpace).rdropWhile isWhiteSpace := rfl

theorem trim_eq_empty_iff (s : String) :
    trim s = "" ↔ ∀ c ∈ s.data, isWhiteSpace c = true := by
  constructor
  · intro h
    have hd : (s.data.dropWhile isWhiteSpace).rdropWhile isWhiteSpace = [] := by
      rw [← trim_data, h]
    have hall := List.rdropWhile_eq_nil_iff.1 hd
    apply List.dropWhile_eq_nil_iff.1
    cases hl : s.data.dropWhile isWhiteSpace with
    | nil => rfl
    | cons c l =>
      exfalso
      have hne : s.data.dropWhile isWhiteSpace ≠ [] := by simp [hl]
      have h1 := List.head_dropWhile_not isWhiteSpace s.data hne
      have h2 := hall _ (List.head_mem hne)
      simp [h2] at h1
  · exact trim_of_all_whiteSpace s

theorem dropWhile_rdropWhile_dropWhile {α : Type} (p : α → Bool) (l : List α) :
    (List.rdropWhile p (l.dropWhile p)).dropWhile p = List.rdropWhile p (l.dropWhile p) := by
  obtain ⟨t, ht⟩ := List.rdropWhile_prefix p (l.dropWhile p)
  cases hr : List.rdropWhile p (l.dropWhile p) with
  | nil => rfl
  | cons c r =>
    rw [hr] at ht
    have hne : l.dropWhile p ≠ [] := by
      rw [← ht]
      simp
    have h1 := List.head_dropWhile_not p l hne
    have hc : (l.dropWhile p).head hne = c := by
      simp [← ht]
    rw [hc] at h1
    rw [List.dropWhile_cons, if_neg (by simpa using h1)]

theorem trim_trim (s : String) : trim (trim s) = trim s := by
  have hd : (trim (trim s)).data = (trim s).data := by
    rw [trim_data (trim s), trim_data s, dropWhile_rdropWhile_dropWhile]
    exact List.rdropWhile_idempotent isWhiteSpace _
  exact String.ext hd

theorem addTodo_blank (title priority uuid : String) (now : Int) (h : trim title = "") :
    addTodo title priority uuid now = none := by
  simp [addTodo, h]

theorem addTodo_nonblank (title priority uuid : String) (now : Int) (h : trim title ≠ "") :
    addTodo title priority uuid now =
      some ⟨"add", ⟨uuid, trim title, priority, false, now⟩, ""⟩ := by
  simp [addTodo, h]

theorem toggle_map_id (C : List Task) (i : String) :
    (C.map (fun todo : Task =>
      if todo.id = i then { todo with completed := !todo.completed } else todo)).map Task.id =
      C.map Task.id := by
  rw [List.map_map]
  apply List.map_congr_left
  intro a _
  by_cases h : a.id = i <;> simp [h]

/-- The reducer keeps the ids pairwise distinct, provided an `add` brings a new id. -/
theorem todoReducer_nodup (C : List Task) (a : Action) (h : (C.map Task.id).Nodup)
    (hadd : a.type = "add" → a.payload.id ∉ C.map Task.id) :
    ((todoReducer C a).map Task.id).Nodup := by
  unfold todoReducer
  by_cases h1 : a.type = "add"
  · rw [if_pos h1, List.map_cons]
    exact List.nodup_cons.2 ⟨hadd h1, h⟩
  · rw [if_neg h1]
    by_cases h2 : a.type = "toggle"
    · rw [if_pos h2, toggle_map_id]
      exact h
    · rw [if_neg h2]
      by_cases h3 : a.type = "remove"
      · rw [if_pos h3]
        exact h.sublist ((List.filter_sublist C).map Task.id)
      · rw [if_neg h3]
        by_cases h4 : a.type = "clear-completed"
        · rw [if_pos h4]
          exact h.sublist ((List.filter_sublist C).map Task.id)
        · rw [if_neg h4]
          exact h

/-- C17, as stated, fails: adding a task whose id is already in the collection gives a
collection in which two tasks share that id. -/
theorem add_existing_id_duplicates :
    ([sampleMilk].map Task.id).Nodup ∧
    ¬ ((todoReducer [sampleMilk] ⟨"add", ⟨"1", "tea", "low", false, 5000⟩, ""⟩).map
        Task.id).Nodup := by
  decide

/-- C17, amended: for a collection with pairwise distinct ids, `toggle`, `remove`,
`clear-completed` and every unrecognised action return a collection with pairwise distinct ids,
and so does `add` when the id of the payload is not yet the id of a task of the collection. -/
theorem ids_stay_distinct (C : List Task) (a : Action) (h : (C.map Task.id).Nodup)
    (hadd : a.type = "add" → a.payload.id ∉ C.map Task.id) :
    ((todoReducer C a).map Task.id).Nodup :=
  todoReducer_nodup C a h hadd

/-- Instance of C17, amended: adding a task with the new id `"7"` to two sample tasks. -/
theorem ids_stay_distinct_witness :
    ([sampleMilk, sampleDog].map Task.id).Nodup ∧
    ((⟨"add", ⟨"7", "tea", "low", false, 5000⟩, ""⟩ : Action).type = "add" ∧
      (⟨"add", ⟨"7", "tea", "low", false, 5000⟩, ""⟩ : Action).payload.id ∉
        [sampleMilk, sampleDog].map Task.id) ∧
    ((todoReducer [sampleMilk, sampleDog] ⟨"add", ⟨"7", "tea", "low", false, 5000⟩, ""⟩).map
      Task.id).Nodup :=
  ⟨by decide, ⟨rfl, by decide⟩,
    ids_stay_distinct [sampleMilk, sampleDog] ⟨"add", ⟨"7", "tea", "low", false, 5000⟩, ""⟩
      (by decide) (fun _ => by decide)⟩

/-- C18: `addTodo` dispatches nothing when the typed title is empty or made of white space, and
otherwise dispatches `add` with the trimmed title and `completed = false`; hence a collection in
which every title is non-empty after trimming stays so under every event of the shell. -/
theorem titles_stay_nonblank (title priority uuid : String) (now : Int) (C : List Task)
    (e : ShellEvent) :
    ((∀ c ∈ title.data, isWhiteSpace c = true) → addTodo title priority uuid now = none) ∧
    (¬ (∀ c ∈ title.data, isWhiteSpace c = true) →
      addTodo title priority uuid now =
        some ⟨"add", ⟨uuid, trim title, priority, false, now⟩, ""⟩) ∧
    ((∀ t ∈ C, trim t.title ≠ "") → ∀ t ∈ shellStep C e, trim t.title ≠ "") := by
  refine ⟨fun h => addTodo_blank _ _ _ _ ((trim_eq_empty_iff title).2 h),
    fun h => addTodo_nonblank _ _ _ _ (fun e => h ((trim_eq_empty_iff title).1 e)), ?_⟩
  intro hC t ht
  cases e with
  | submit ti pr uu no =>
    by_cases hb : trim ti = ""
    · have : shellStep C (.submit ti pr uu no) = C := by
        simp [shellStep, ShellEvent.dispatched, addTodo_blank ti pr uu no hb]
      rw [this] at ht
      exact hC t ht
    · have : shellStep C (.submit ti pr uu no) = ⟨uu, trim ti, pr, false, no⟩ :: C := by
        simp [shellStep, ShellEvent.dispatched, addTodo_nonblank ti pr uu no hb, todoReducer]
      rw [this] at ht
      rcases List.mem_cons.1 ht with e | e
      · subst e
        show trim (trim ti) ≠ ""
        rw [trim_trim]
        exact hb
      · exact hC t e
  | toggle i =>
    have : shellStep C (.toggle i) = C.map (fun todo : Task =>
        if todo.id = i then { todo with completed := !todo.completed } else todo) := by
      simp [shellStep, ShellEvent.dispatched, todoReducer]
    rw [this] at ht
    obtain ⟨u, hu, rfl⟩ := List.mem_map.1 ht
    have := hC u hu
    by_cases h : u.id = i <;> simpa [h] using this
  | remove i =>
    have : shellStep C (.remove i) = C.filter (fun todo => decide (todo.id ≠ i)) := by
      simp [shellStep, ShellEvent.dispatched, todoReducer]
    rw [this] at ht
    exact hC t (List.mem_filter.1 ht).1
  | clearCompleted =>
    have : shellStep C .clearCompleted = C.filter (fun todo => !todo.completed) := by
      simp [shellStep, ShellEvent.dispatched, todoReducer]
    rw [this] at ht
    exact hC t (List.mem_filter.1 ht).1

/-- Instance of C18: a title of blanks dispatches nothing, a padded title is stored trimmed, and
the sample collection keeps non-empty titles after a submit. -/
theorem titles_stay_nonblank_witness :
    ((∀ c ∈ "   ".data, isWhiteSpace c = true) ∧ addTodo "   " "low" "u1" 7 = none) ∧
    (¬ (∀ c ∈ "  tea ".data, isWhiteSpace c = true) ∧
      addTodo "  tea " "low" "u1" 7 =
        some ⟨"add", ⟨"u1", trim "  tea ", "low", false, 7⟩, ""⟩) ∧
    ((∀ t ∈ [sampleMilk, sampleDog], trim t.title ≠ "") ∧
      ∀ t ∈ shellStep [sampleMilk, sampleDog] (.submit "  tea " "low" "u1" 7),
        trim t.title ≠ "") :=
  ⟨⟨by decide, (titles_stay_nonblank "   " "low" "u1" 7 [] .clearCompleted).1 (by decide)⟩,
    ⟨by decide, (titles_stay_nonblank "  tea " "low" "u1" 7 [] .clearCompleted).2.1 (by decide)⟩,
    ⟨by decide,
      (titles_stay_nonblank "" "" "" 0 [sampleMilk, sampleDog]
        (.submit "  tea " "low" "u1" 7)).2.2 (by decide)⟩⟩

/-! ## Persistence adapter: reading and writing the slot -/

theorem readLocalTodos_of_error (J : JSON) (storage : LocalStorage) (e : Thrown)
    (h : readLocalTodosTry J storage = .error e) : readLocalTodos J storage = [] := by
  simp [readLocalTodos, h]

theorem readLocalTodos_of_item (J : JSON) (get : String → Option String) (raw : String)
    (items : List JsValue) (h : get STORAGE_KEY = some raw) (hraw : raw ≠ "")
    (hp : J.parse raw = some (.array items)) :
    readLocalTodos J (.items get) = items := by
  simp [readLocalTodos, readLocalTodosTry, LocalStorage.getItem, h, hraw, hp]

/-! ### The JSON reader of this file takes back what its writer wrote -/

theorem readString_escapeChar (c : Char) (acc tail : List Char) :
    readString acc (escapeChar c ++ tail) = readString (c :: acc) tail := by
  by_cases h32 : c.toNat < 32
  · have hc : c = Char.ofNat c.toNat := (Char.ofNat_toNat c).symm
    generalize c.toNat = n at hc h32
    subst hc
    interval_cases n <;>
      (rw [readString.eq_def]; simp [escapeChar, unescape, hexValue, hexDigit, dquote, rsolidus])
  · by_cases h1 : c = dquote
    · subst h1
      rw [readString.eq_def]
      simp [escapeChar, unescape, dquote, rsolidus]
    · by_cases h2 : c = rsolidus
      · subst h2
        rw [readString.eq_def]
        simp [escapeChar, unescape, dquote, rsolidus]
      · have e : escapeChar c = [c] := by
          unfold escapeChar
          rw [if_neg h1, if_neg h2]
          have : ¬ c.toNat = 8 ∧ ¬ c.toNat = 9 ∧ ¬ c.toNat = 10 ∧ ¬ c.toNat = 12 ∧
              ¬ c.toNat = 13 := by omega
          rw [if_neg this.1, if_neg this.2.1, if_neg this.2.2.1, if_neg this.2.2.2.1,
            if_neg this.2.2.2.2, if_neg h32]
        rw [e, readString.eq_def]
        simp [h1, h2, h32]


theorem readString_flatMap (cs : List Char) :
    ∀ acc tail : List Char,
      readString acc (cs.flatMap escapeChar ++ dquote :: tail) =
        some (String.mk (acc.reverse ++ cs), tail) := by
  induction cs with
  | nil =>
    intro acc tail
    rw [readString.eq_def]
    simp
  | cons c cs ih =>
    intro acc tail
    rw [List.flatMap_cons, List.append_assoc, readString_escapeChar, ih]
    simp

theorem readString_quoted (s : String) (tail : List Char) :
    readString [] (s.data.flatMap escapeChar ++ dquote :: tail) = some (s, tail) := by
  rw [readString_flatMap]
  simp

theorem quoteText_append (s : String) (tail : List Char) :
    quoteText s ++ tail = dquote :: (s.data.flatMap escapeChar ++ dquote :: tail) := by
  simp [quoteText]

theorem skipSpace_dquote (cs : List Char) : skipSpace (dquote :: cs) = dquote :: cs := by
  simp [skipSpace, dquote]

theorem readValue_string (n : Nat) (s : String) (tail : List Char) :
    readValue (n + 1) (writeValue (.string s) ++ tail) = some (.string s, tail) := by
  rw [writeValue, quoteText_append, readValue, skipSpace_dquote]
  simp [readString_quoted]

theorem readValue_bool (n : Nat) (b : Bool) (tail : List Char) :
    readValue (n + 1) (writeValue (.bool b) ++ tail) = some (.bool b, tail) := by
  cases b
  · rw [writeValue, readValue]
    simp [skipSpace, dquote, lbrace]
  · rw [writeValue, readValue]
    simp [skipSpace, dquote, lbrace]


theorem writeFields_cons_cons (k : String) (v : JsValue) (f : String × JsValue)
    (fs : List (String × JsValue)) :
    writeFields ((k, v) :: f :: fs) =
      quoteText k ++ ':' :: writeValue v ++ ',' :: writeFields (f :: fs) := by
  rw [writeFields]

theorem writeFields_single (k : String) (v : JsValue) :
    writeFields [(k, v)] = quoteText k ++ ':' :: writeValue v := by
  rw [writeFields]

theorem writeFields_head (f : String × JsValue) (fs : List (String × JsValue)) :
    ∃ cs, writeFields (f :: fs) = dquote :: cs := by
  obtain ⟨k, v⟩ := f
  cases fs with
  | nil => exact ⟨_, by rw [writeFields_single, quoteText]; rfl⟩
  | cons g gs => exact ⟨_, by rw [writeFields_cons_cons, quoteText]; rfl⟩

/-- The reader takes back the members the writer wrote, when each member value is read back
with any positive bound. -/
theorem readFields_writeFields :
    ∀ (fs : List (String × JsValue)), fs ≠ [] →
      (∀ kv ∈ fs, ∀ (m : Nat) (rest : List Char),
        readValue (m + 1) (writeValue kv.2 ++ rest) = some (kv.2, rest)) →
      ∀ (n : Nat) (tail : List Char),
        readFields (n + fs.length + 1) (writeFields fs ++ rbrace :: tail) = some (fs, tail)
  | [], h, _ => absurd rfl h
  | [(k, v)], _, hv => by
    intro n tail
    have h1 := hv (k, v) (List.mem_singleton.2 rfl) n (rbrace :: tail)
    rw [writeFields_single]
    simp only [List.length_singleton, List.append_assoc, List.cons_append, quoteText_append]
    rw [readFields, skipSpace_dquote]
    simp only [rbrace] at h1 ⊢
    simp [readString_quoted, skipSpace, h1]
  | (k, v) :: f :: fs, _, hv => by
    intro n tail
    have h1 := hv (k, v) (List.mem_cons_self _ _) (n + (f :: fs).length)
      (',' :: (writeFields (f :: fs) ++ rbrace :: tail))
    have ih := readFields_writeFields (f :: fs) (by simp)
      (fun kv hkv => hv kv (List.mem_cons_of_mem _ hkv)) n tail
    rw [writeFields_cons_cons]
    simp only [List.append_assoc, List.cons_append, quoteText_append]
    have e : n + ((k, v) :: f :: fs).length + 1 = (n + (f :: fs).length + 1) + 1 := by
      simp only [List.length_cons]
      omega
    rw [e, readFields, skipSpace_dquote]
    simp only [rbrace, List.length_cons] at h1 ih ⊢
    simp [readString_quoted, skipSpace, h1, ih]


/-- The reader takes back a non-empty object the writer wrote. -/
theorem readValue_object (fs : List (String × JsValue)) (hne : fs ≠ [])
    (hv : ∀ kv ∈ fs, ∀ (m : Nat) (rest : List Char),
      readValue (m + 1) (writeValue kv.2 ++ rest) = some (kv.2, rest))
    (n : Nat) (tail : List Char) :
    readValue (n + fs.length + 2) (writeValue (.object fs) ++ tail) =
      some (.object fs, tail) := by
  have hf := readFields_writeFields fs hne hv n tail
  obtain ⟨f, gs, rfl⟩ := List.exists_cons_of_ne_nil hne
  obtain ⟨cs, hcs⟩ := writeFields_head f gs
  rw [writeValue]
  simp only [List.cons_append, List.append_assoc, List.singleton_append, List.nil_append]
  rw [readValue]
  have hsk : skipSpace (lbrace :: (writeFields (f :: gs) ++ rbrace :: tail)) =
      lbrace :: (writeFields (f :: gs) ++ rbrace :: tail) := by
    simp [skipSpace, lbrace]
  rw [hsk]
  have hsk2 : skipSpace (writeFields (f :: gs) ++ rbrace :: tail) =
      dquote :: (cs ++ rbrace :: tail) := by
    rw [hcs, List.cons_append, skipSpace_dquote]
  simp only [hsk2]
  rw [← List.cons_append, ← hcs, hf]
  simp [lbrace, dquote, rbrace]

theorem writeItems_cons_cons (v w : JsValue) (vs : List JsValue) :
    writeItems (v :: w :: vs) = writeValue v ++ ',' :: writeItems (w :: vs) := by
  rw [writeItems]

theorem writeItems_single (v : JsValue) : writeItems [v] = writeValue v := by
  rw [writeItems]

/-- The reader takes back the elements the writer wrote, when each element is read back with
any bound from `F` on. -/
theorem readItems_writeItems (F : Nat) :
    ∀ (vs : List JsValue), vs ≠ [] →
      (∀ v ∈ vs, ∀ (m : Nat) (rest : List Char),
        readValue (m + F) (writeValue v ++ rest) = some (v, rest)) →
      ∀ (n : Nat) (tail : List Char),
        readItems (n + vs.length + F) (writeItems vs ++ ']' :: tail) = some (vs, tail)
  | [], h, _ => absurd rfl h
  | [v], _, hv => by
    intro n tail
    have h1 := hv v (List.mem_singleton.2 rfl) n (']' :: tail)
    have e : n + [v].length + F = (n + F) + 1 := by
      simp only [List.length_singleton]
      omega
    rw [writeItems_single, e, readItems, h1]
    simp [skipSpace]
  | v :: w :: vs, _, hv => by
    intro n tail
    have h1 := hv v (List.mem_cons_self _ _) (n + (w :: vs).length)
      (',' :: (writeItems (w :: vs) ++ ']' :: tail))
    have ih := readItems_writeItems F (w :: vs) (by simp)
      (fun x hx => hv x (List.mem_cons_of_mem _ hx)) n tail
    have e : n + (v :: w :: vs).length + F = (n + (w :: vs).length + F) + 1 := by
      simp only [List.length_cons]
      omega
    rw [writeItems_cons_cons, e, readItems]
    simp only [List.append_assoc, List.cons_append]
    rw [h1]
    simp only [List.length_cons] at ih
    simp [skipSpace, ih]


/-- The reader takes back the object of a task. -/
theorem readValue_task (J : JSON) (t : Task) (n : Nat) (tail : List Char) :
    readValue (n + 7) (writeValue (Task.toJs J t) ++ tail) = some (Task.toJs J t, tail) := by
  unfold Task.toJs
  have h := readValue_object
    [("id", JsValue.string t.id), ("title", JsValue.string t.title),
      ("priority", JsValue.string t.priority), ("completed", JsValue.bool t.completed),
      ("createdAt", JsValue.string (J.toISOString t.createdAt))] (List.cons_ne_nil _ _) ?_ n tail
  · exact h
  intro kv hkv m rest
  simp only [List.mem_cons, List.mem_singleton, List.not_mem_nil, or_false] at hkv
  rcases hkv with h | h | h | h | h <;> subst h
  · exact readValue_string m _ rest
  · exact readValue_string m _ rest
  · exact readValue_string m _ rest
  · exact readValue_bool m _ rest
  · exact readValue_string m _ rest

theorem writeValue_task_head (J : JSON) (t : Task) :
    ∃ cs, writeValue (Task.toJs J t) = lbrace :: cs ∧ 7 ≤ cs.length := by
  unfold Task.toJs
  rw [writeValue]
  refine ⟨_, rfl, ?_⟩
  simp [writeFields, quoteText, List.length_append]
  omega

theorem writeItems_tasks_head (J : JSON) (t : Task) (ts : List Task) :
    ∃ cs, writeItems ((t :: ts).map (Task.toJs J)) = lbrace :: cs ∧
      8 * ts.length + 7 ≤ cs.length := by
  induction ts generalizing t with
  | nil =>
    obtain ⟨cs, h, hl⟩ := writeValue_task_head J t
    exact ⟨cs, by rw [List.map_cons, List.map_nil, writeItems_single, h], by simpa using hl⟩
  | cons u us ih =>
    obtain ⟨cs, h, hl⟩ := writeValue_task_head J t
    obtain ⟨ds, h2, hl2⟩ := ih u
    refine ⟨cs ++ ',' :: writeItems ((u :: us).map (Task.toJs J)), ?_, ?_⟩
    · rw [List.map_cons, List.map_cons, writeItems_cons_cons, h]
      rfl
    · rw [h2]
      simp only [List.length_append, List.length_cons]
      omega

/-- The reader takes back a non-empty array of task objects. -/
theorem readValue_tasks (J : JSON) (t : Task) (ts : List Task) (n : Nat) (tail : List Char) :
    readValue (n + (t :: ts).length + 8)
        (writeValue (.array ((t :: ts).map (Task.toJs J))) ++ tail) =
      some (.array ((t :: ts).map (Task.toJs J)), tail) := by
  have hi := readItems_writeItems 7 ((t :: ts).map (Task.toJs J)) (by simp)
    (fun v hv m rest => by
      obtain ⟨u, _, rfl⟩ := List.mem_map.1 hv
      exact readValue_task J u m rest) n tail
  obtain ⟨cs, hcs, _⟩ := writeItems_tasks_head J t ts
  rw [List.length_map] at hi
  rw [writeValue]
  simp only [List.cons_append, List.append_assoc, List.singleton_append, List.nil_append]
  rw [readValue]
  have hsk : skipSpace ('[' :: (writeItems ((t :: ts).map (Task.toJs J)) ++ ']' :: tail)) =
      '[' :: (writeItems ((t :: ts).map (Task.toJs J)) ++ ']' :: tail) := by
    simp [skipSpace]
  rw [hsk]
  have hsk2 : skipSpace (writeItems ((t :: ts).map (Task.toJs J)) ++ ']' :: tail) =
      lbrace :: (cs ++ ']' :: tail) := by
    rw [hcs, List.cons_append]
    simp [skipSpace, lbrace]
  simp only [hsk2]
  rw [hi]
  simp [lbrace, dquote]

/-- The reader of this file takes back the text its writer writes for a collection. -/
theorem readJson_tasks (J : JSON) (todos : List Task) :
    readJson (String.mk (writeValue (.array (todos.map (Task.toJs J))))) =
      some (.array (todos.map (Task.toJs J))) := by
  cases todos with
  | nil => rfl
  | cons t ts =>
    obtain ⟨cs, hcs, hl⟩ := writeItems_tasks_head J t ts
    have hlen : (writeValue (.array ((t :: ts).map (Task.toJs J)))).length =
        cs.length + 3 := by
      rw [writeValue, hcs]
      simp
    have hfuel : ∃ n, (writeValue (.array ((t :: ts).map (Task.toJs J)))).length + 1 =
        n + (t :: ts).length + 8 := by
      refine ⟨cs.length + 3 + 1 - ((t :: ts).length + 8), ?_⟩
      rw [hlen]
      simp only [List.length_cons]
      omega
    obtain ⟨n, hn⟩ := hfuel
    have h := readValue_tasks J t ts n []
    rw [List.append_nil] at h
    unfold readJson
    show (match readValue ((writeValue (.array ((t :: ts).map (Task.toJs J)))).length + 1)
      (writeValue (.array ((t :: ts).map (Task.toJs J)))) with
      | some (v, r) => if skipSpace r = [] then some v else none
      | none => none) = _
    rw [hn, h]
    simp [skipSpace]

/-! ### The adapter -/

/-- C15: `readLocalTodos` is a total function whose `catch` turns every throw of the `try`
block into the empty collection, and it returns the empty collection when access to the storage
throws, when the slot is absent, when it holds the empty string, when its text is not valid
JSON, and when the text is valid JSON whose top-level value is not an array. -/
theorem read_falls_back (J : JSON) (storage : LocalStorage) (e : Thrown)
    (get : String → Option String) (raw : String) (v : JsValue) :
    (readLocalTodosTry J storage = .error e → readLocalTodos J storage = []) ∧
    readLocalTodos J .blocked = [] ∧
    (get STORAGE_KEY = none → readLocalTodos J (.items get) = []) ∧
    (get STORAGE_KEY = some "" → readLocalTodos J (.items get) = []) ∧
    (get STORAGE_KEY = some raw → J.parse raw = none → readLocalTodos J (.items get) = []) ∧
    (get STORAGE_KEY = some raw → J.parse raw = some v → (∀ items, v ≠ .array items) →
      readLocalTodos J (.items get) = []) := by
  refine ⟨readLocalTodos_of_error J storage e, rfl, ?_, ?_, ?_, ?_⟩
  · intro h
    simp [readLocalTodos, readLocalTodosTry, LocalStorage.getItem, h]
  · intro h
    simp [readLocalTodos, readLocalTodosTry, LocalStorage.getItem, h]
  · intro h hp
    by_cases hraw : raw = ""
    · simp [readLocalTodos, readLocalTodosTry, LocalStorage.getItem, h, hraw]
    · simp [readLocalTodos, readLocalTodosTry, LocalStorage.getItem, h, hraw, hp]
  · intro h hp hv
    by_cases hraw : raw = ""
    · simp [readLocalTodos, readLocalTodosTry, LocalStorage.getItem, h, hraw]
    · cases v with
      | array items => exact absurd rfl (hv items)
      | null => simp [readLocalTodos, readLocalTodosTry, LocalStorage.getItem, h, hraw, hp]
      | bool b => simp [readLocalTodos, readLocalTodosTry, LocalStorage.getItem, h, hraw, hp]
      | number n => simp [readLocalTodos, readLocalTodosTry, LocalStorage.getItem, h, hraw, hp]
      | string t => simp [readLocalTodos, readLocalTodosTry, LocalStorage.getItem, h, hraw, hp]
      | object fs => simp [readLocalTodos, readLocalTodosTry, LocalStorage.getItem, h, hraw, hp]

/-- Instance of C15 with the JSON reader of this file: a blocked storage, an absent slot, an
empty slot, the text `oops` and the text of an empty object all read as the empty collection. -/
theorem read_falls_back_witness :
    (readLocalTodosTry textJson .blocked = .error .storageAccess ∧
      readLocalTodos textJson .blocked = []) ∧
    ((fun _ : String => (none : Option String)) STORAGE_KEY = none ∧
      readLocalTodos textJson (.items (fun _ => none)) = []) ∧
    ((fun _ : String => some "") STORAGE_KEY = some "" ∧
      readLocalTodos textJson (.items (fun _ => some "")) = []) ∧
    ((fun _ : String => some "oops") STORAGE_KEY = some "oops" ∧ textJson.parse "oops" = none ∧
      readLocalTodos textJson (.items (fun _ => some "oops")) = []) ∧
    ((fun _ : String => some "\x7b\x7d") STORAGE_KEY = some "\x7b\x7d" ∧
      textJson.parse "\x7b\x7d" = some (.object []) ∧
      (∀ items, JsValue.object [] ≠ .array items) ∧
      readLocalTodos textJson (.items (fun _ => some "\x7b\x7d")) = []) :=
  ⟨⟨rfl, (read_falls_back textJson .blocked .storageAccess (fun _ => none) "" .null).1 rfl⟩,
    ⟨rfl, (read_falls_back textJson .blocked .jsonParse (fun _ => none) "" .null).2.2.1 rfl⟩,
    ⟨rfl, (read_falls_back textJson .blocked .jsonParse (fun _ => some "") "" .null).2.2.2.1 rfl⟩,
    ⟨rfl, rfl,
      (read_falls_back textJson .blocked .jsonParse (fun _ => some "oops") "oops"
        .null).2.2.2.2.1 rfl rfl⟩,
    ⟨rfl, rfl, fun _ h => JsValue.noConfusion h,
      (read_falls_back textJson .blocked .jsonParse (fun _ => some "\x7b\x7d") "\x7b\x7d"
        (.object [])).2.2.2.2.2 rfl rfl (fun _ h => JsValue.noConfusion h)⟩⟩

/-- Saving and then reading returns the tasks, when `JSON.parse` rejects the empty text and
reads back the text written for the collection. -/
theorem read_after_save (J : JSON) (todos : List Task) (get : String → Option String)
    (hempty : J.parse "" = none)
    (hround : J.parse (J.stringify (.array (todos.map (Task.toJs J)))) =
      some (.array (todos.map (Task.toJs J)))) :
    ∃ after, saveLocalTodos J (.items get) todos = .ok after ∧
      readLocalTodos J after = todos.map (Task.toJs J) := by
  have hne : J.stringify (.array (todos.map (Task.toJs J))) ≠ "" := by
    intro h
    rw [h, hempty] at hround
    exact Option.noConfusion hround
  exact ⟨_, rfl, readLocalTodos_of_item J _ _ _ (by simp) hne hround⟩

/-- C16: round trip.  Whenever `JSON.parse` rejects the empty text and reads back the text
`JSON.stringify` writes for the collection, `saveLocalTodos` followed by `readLocalTodos`
returns the tasks of the collection in their order, whatever the storage held before; and with
the JSON writer and reader of this file this holds for every collection, the empty one
included. -/
theorem save_then_read (J : JSON) (todos : List Task) (get other : String → Option String) :
    (J.parse "" = none →
      J.parse (J.stringify (.array (todos.map (Task.toJs J)))) =
        some (.array (todos.map (Task.toJs J))) →
      ∃ after, saveLocalTodos J (.items get) todos = .ok after ∧
        readLocalTodos J after = todos.map (Task.toJs J) ∧
        ∃ after2, saveLocalTodos J (.items other) todos = .ok after2 ∧
          readLocalTodos J after2 = readLocalTodos J after) ∧
    (∃ after, saveLocalTodos textJson (.items get) todos = .ok after ∧
      readLocalTodos textJson after = todos.map (Task.toJs textJson) ∧
      ∃ after2, saveLocalTodos textJson (.items other) todos = .ok after2 ∧
        readLocalTodos textJson after2 = readLocalTodos textJson after) := by
  have core : ∀ K : JSON, K.parse "" = none →
      K.parse (K.stringify (.array (todos.map (Task.toJs K)))) =
        some (.array (todos.map (Task.toJs K))) →
      ∃ after, saveLocalTodos K (.items get) todos = .ok after ∧
        readLocalTodos K after = todos.map (Task.toJs K) ∧
        ∃ after2, saveLocalTodos K (.items other) todos = .ok after2 ∧
          readLocalTodos K after2 = readLocalTodos K after := by
    intro K h1 h2
    obtain ⟨a, ha, hr⟩ := read_after_save K todos get h1 h2
    obtain ⟨b, hb, hr2⟩ := read_after_save K todos other h1 h2
    exact ⟨a, ha, hr, b, hb, hr2.trans hr.symm⟩
  exact ⟨core J, core textJson rfl (readJson_tasks textJson todos)⟩

set_option maxRecDepth 100000 in
/-- Instance of C16 with the JSON writer and reader of this file: two sample tasks are read back
from a storage that was empty and from one that held other text. -/
theorem save_then_read_witness :
    textJson.parse "" = none ∧
    textJson.parse (textJson.stringify (.array ([sampleMilk, sampleDog].map
      (Task.toJs textJson)))) = some (.array ([sampleMilk, sampleDog].map (Task.toJs textJson))) ∧
    ∃ after, saveLocalTodos textJson (.items (fun _ => none)) [sampleMilk, sampleDog] =
        .ok after ∧
      readLocalTodos textJson after = [sampleMilk, sampleDog].map (Task.toJs textJson) ∧
      ∃ after2, saveLocalTodos textJson (.items (fun _ => some "oops"))
          [sampleMilk, sampleDog] = .ok after2 ∧
        readLocalTodos textJson after2 = readLocalTodos textJson after :=
  ⟨rfl, rfl,
    (save_then_read textJson [sampleMilk, sampleDog] (fun _ => none) (fun _ => some "oops")).1
      rfl rfl⟩

end AdvancedTodo
